import Mathlib

/-!
Verification of the atlas DNS forwarder core against its specification.

Each Go function that a claim touches is embedded as a Lean definition
(pure functions stay pure; stateful code is turned into explicit state
passing or a step relation; Go `(T, error)` returns become `Except`);
theorems then settle the claims over these definitions.

Strings from the Go source are embedded as `List Char`; Go error values
are embedded as constructors of a small inductive type, one constructor
per distinct error message of the source.

The file has two parts: first all definitions, then all theorems.
-/

set_option maxHeartbeats 1000000

namespace Atlas

/-! ## Part 1: definitions -/

/-! ### Errors -/

/-- Error values of the embedded code paths.  Each constructor stands for
one distinct error produced by the Go source (or by a library the source
calls). -/
inductive GoErr : Type where
  /-- wraps a matcher error: `exec rule failed, name:%s, err:%w` -/
  | execRuleFailed (ruleName : Nat) (inner : GoErr) : GoErr
  /-- `no rule match, may be you need a default rule?` -/
  | noRuleMatch : GoErr
  /-- opaque error returned by an action, matcher or resolver, tagged by a code -/
  | tagged (code : Nat) : GoErr
  /-- `must provide a positive size` returned by `lru.New` (hashicorp/golang-lru) -/
  | lruBadSize : GoErr
  /-- the `panic(fmt.Errorf("init lru failed, err:%w", err))` in `newCacheManager` -/
  | initLruPanic : GoErr
  /-- `all outbound resolvers failed` (outbound `Group.Query`) -/
  | allResolversFailed : GoErr
  /-- `no err return and no dns record found?` (`groupResolver.Query`) -/
  | noErrNoRecord : GoErr
  /-- `mismatched parentheses in expression` -/
  | mismatchedParens : GoErr
  /-- `invalid expression: missing operand for NOT` -/
  | missingOperandNot : GoErr
  /-- `invalid expression: missing operands for binary operator` -/
  | missingOperandBin : GoErr
  /-- `invalid expression: unresolved operands remain` -/
  | unresolvedOperands : GoErr
  /-- `matcher %s not found` -/
  | matcherNotFound (name : Nat) : GoErr
  /-- `unexpected token in rpn` -/
  | unexpectedRpnToken : GoErr
  deriving DecidableEq, Repr

/-! ### Rule engine (package `rule`, `defaultEngine.Execute`) -/

/-- A rule as assembled by `rule.NewRule`: a name, a compiled match
expression and an action.  `matchFn` embeds `IDNSRule.Match`,
`performFn` embeds `IDNSRule.Perform`. -/
structure DNSRule (Req Msg : Type) where
  name : Nat
  matchFn : Req → Except GoErr Bool
  performFn : Req → Except GoErr Msg

/-- Embedding of `defaultEngine.Execute`: iterate the rules in order; a
match error aborts; the first rule whose expression is true has its
action performed and that result (success or error) is returned; if no
rule matches, return the `noRuleMatch` error. -/
def Execute {Req Msg : Type} : List (DNSRule Req Msg) → Req → Except GoErr Msg
  | [], _ => .error .noRuleMatch
  | r :: rest, req =>
    match r.matchFn req with
    | .error e => .error (.execRuleFailed r.name e)
    | .ok false => Execute rest req
    | .ok true => r.performFn req

/-- `Execute` instrumented with an invocation trace: the second component
lists the names of the rules whose `Match` was invoked (in order), the
third lists the names of the rules whose `Perform` was invoked. -/
def ExecuteT {Req Msg : Type} : List (DNSRule Req Msg) → Req →
    Except GoErr Msg × List Nat × List Nat
  | [], _ => (.error .noRuleMatch, [], [])
  | r :: rest, req =>
    match r.matchFn req with
    | .error e => (.error (.execRuleFailed r.name e), [r.name], [])
    | .ok false =>
      let p := ExecuteT rest req
      (p.1, r.name :: p.2.1, p.2.2)
    | .ok true => (r.performFn req, [r.name], [r.name])

/-! ### Cache manager TTL extraction (`cacheManager.extractTTL`, `cacheManager.store`) -/

/-- A resource record reduced to the only header field the cache manager
inspects: the TTL. -/
structure RR where
  ttl : Nat
  deriving DecidableEq, Repr

/-- The three record sections of a DNS response that
`cacheManager.extractTTL` walks: `Answer`, `Ns` (authority), `Extra`
(additional). -/
structure DnsSections where
  answer : List RR
  ns : List RR
  extra : List RR
  deriving DecidableEq, Repr

/-- One of the three identical loops in `extractTTL`:
`if !found || rr.Header().Ttl < minTTL { minTTL = rr.Header().Ttl; found = true }`
folded over the records, with state `(minTTL, found)`. -/
def ttlFold (rrs : List RR) (st : Nat × Bool) : Nat × Bool :=
  rrs.foldl (fun p rr => if p.2 = false ∨ rr.ttl < p.1 then (rr.ttl, true) else p) st

/-- Embedding of `cacheManager.extractTTL`: fold the answer section; only
if nothing was found fold the authority section; only if still nothing
was found fold the additional section. -/
def extractTTL (m : DnsSections) : Nat × Bool :=
  let p1 := ttlFold m.answer (0, false)
  let p2 := if p1.2 then p1 else ttlFold m.ns p1
  let p3 := if p2.2 then p2 else ttlFold m.extra p2
  p3

/-- Embedding of the insert decision of `cacheManager.store`: extract the
TTL; when nothing was found or the extracted TTL is zero the response is
not cached, otherwise the entry expires at `now + ttl` (seconds). -/
def storeExpire (now : Nat) (m : DnsSections) : Option Nat :=
  let p := extractTTL m
  if p.2 = false ∨ p.1 = 0 then none else some (now + p.1)

/-- Plain minimum TTL of a section (`none` when the section is empty). -/
def sectionMinTTL : List RR → Option Nat
  | [] => none
  | h :: t => some (t.foldl (fun a rr => Nat.min a rr.ttl) h.ttl)

/-- The first non-empty section in the order answer, authority,
additional (the order `extractTTL` walks them). -/
def firstSection (m : DnsSections) : List RR :=
  if m.answer ≠ [] then m.answer
  else if m.ns ≠ [] then m.ns
  else m.extra

/-- Transcription of the claim's (and spec's) insert policy, for
comparison with the code: the minimum positive TTL over answer, then
authority, then additional, where the first section containing any
positive TTL wins; `none` when no section has a positive TTL. -/
def specMinPositiveTTL (m : DnsSections) : Option Nat :=
  let pos := fun (l : List RR) => (l.map RR.ttl).filter (fun t => 0 < t)
  let sec :=
    if pos m.answer ≠ [] then pos m.answer
    else if pos m.ns ≠ [] then pos m.ns
    else pos m.extra
  match sec with
  | [] => none
  | h :: t => some (t.foldl Nat.min h)

/-- The response used to refute the claimed insert policy: an answer
section holding a zero-TTL record and a 300-second record. -/
def mixedTTLMsg : DnsSections := ⟨[⟨0⟩, ⟨300⟩], [], []⟩

/-! ### Inbound handler (`dnsServer.handleDNS`, src/internal/server/server.go) -/

/-- A DNS question, as far as the handler inspects it. -/
structure Question where
  qname : List Char
  qtype : Nat
  qclass : Nat
  deriving DecidableEq, Repr

/-- A DNS message, reduced to the fields the inbound handler reads or
writes. -/
structure DnsMsg where
  msgId : Nat
  opcode : Nat
  rcode : Nat
  question : List Question
  response : Bool
  deriving DecidableEq, Repr

/-- `dns.OpcodeQuery` -/
def OpcodeQuery : Nat := 0

/-- `dns.RcodeServerFailure` -/
def RcodeServerFailure : Nat := 2

/-- Embedding of `resp.SetRcode(req, rcode)` from miekg/dns: a reply to
`req` carrying the given response code. -/
def setRcode (req : DnsMsg) (rcode : Nat) : DnsMsg :=
  { msgId := req.msgId, opcode := req.opcode, rcode := rcode,
    question := req.question, response := true }

/-- What `handleDNS` did on the wire: either it returned without writing
anything, or it wrote a response message. -/
inductive HandlerResult where
  | dropped
  | wrote (resp : DnsMsg)
  deriving DecidableEq, Repr

/-- Embedding of `dnsServer.handleDNS` (first revision in
src/internal/server/server.go): an invalid request (opcode other than
QUERY, or empty question section) is logged and the handler returns
without writing any response; otherwise the engine runs and its
response, or a SERVFAIL reply on engine error, is written.  The boolean
records whether the rule engine (`processRequest`) was invoked. -/
def handleDNS (engine : DnsMsg → Except GoErr DnsMsg) (req : DnsMsg) :
    HandlerResult × Bool :=
  if req.opcode ≠ OpcodeQuery ∨ req.question = [] then (.dropped, false)
  else
    match engine req with
    | .ok resp => (.wrote resp, true)
    | .error _ => (.wrote (setRcode req RcodeServerFailure), true)

/-- An engine stub for the concrete counterexample. -/
def engineStub : DnsMsg → Except GoErr DnsMsg := fun req => .ok (setRcode req 0)

/-- An invalid inbound message: opcode 1 (IQUERY) with a question. -/
def invalidOpcodeReq : DnsMsg :=
  { msgId := 7, opcode := 1, rcode := 0,
    question := [⟨[Char.ofNat 97], 1, 1⟩], response := false }

/-! ### Cache configuration
(`ConfigureCache`/`newCacheManager` of the `cacheManager` revision,
cache.go:432/485, and `ConfigureCache`/`TryEnableResolverCache` of the
`cacheResolver` revision, cache.go:852/860) -/

/-- `lru.New` of hashicorp/golang-lru (external dependency): errors with
`must provide a positive size` unless the size is positive. -/
def lruNew (size : Int) : Except GoErr Unit :=
  if size ≤ 0 then .error .lruBadSize else .ok ()

/-- The LRU capacity actually installed by `newCacheManager`. -/
structure CacheMgrInit where
  size : Int
  deriving DecidableEq, Repr

/-- Size adjustment of `ConfigureCache` in the `cacheManager` revision
(cache.go:432): a negative size is replaced by 1000, zero is kept. -/
def configureCacheSizeMgr (size : Int) : Int :=
  if size < 0 then 1000 else size

/-- Embedding of `newCacheManager` (cache.go:485): building the LRU with
the configured size; a failing `lru.New` makes the constructor panic,
embedded as the `initLruPanic` error. -/
def newCacheManager (size : Int) : Except GoErr CacheMgrInit :=
  match lruNew size with
  | .error _ => .error .initLruPanic
  | .ok _ => .ok ⟨size⟩

/-- `ConfigureCache` of the `cacheManager` revision: adjust the size,
then construct and install the manager. -/
def ConfigureCacheMgr (size : Int) : Except GoErr CacheMgrInit :=
  newCacheManager (configureCacheSizeMgr size)

/-- Size adjustment of `ConfigureCache` in the `cacheResolver` revision
(cache.go:852): a negative size is replaced by 0. -/
def configureCacheSizeRes (size : Int) : Int :=
  if size < 0 then 0 else size

/-- A resolver value; wrapping marks the decoration added by
`newCacheResolver`. -/
inductive Resolver where
  | base (id : Nat)
  | cacheWrap (inner : Resolver) (size : Int)
  deriving DecidableEq, Repr

/-- Embedding of `TryEnableResolverCache` of the `cacheResolver` revision
(cache.go:860): with a non-positive configured size the input resolver
is returned unchanged (no caching layer), otherwise it is wrapped. -/
def TryEnableResolverCache (size : Int) (r : Resolver) : Resolver :=
  if size ≤ 0 then r else .cacheWrap r size

/-! ### Lazy refresh single-flight (`cacheManager.scheduleRefresh`) -/

/-- The mutex-protected check-and-set at the top of `scheduleRefresh`
(cache.go:594): if the key is already in flight nothing is scheduled
(`false`), otherwise the key is marked in flight and a refresh goroutine
is spawned (`true`). -/
def scheduleBegin (inflight : List Nat) (k : Nat) : List Nat × Bool :=
  if k ∈ inflight then (inflight, false) else (k :: inflight, true)

/-- The deferred cleanup in the refresh goroutine: the marker is removed
from the in-flight set, regardless of whether the refresh succeeded. -/
def refreshFinish (inflight : List Nat) (k : Nat) : List Nat :=
  inflight.erase k

/-- Events of the single-flight protocol: a caller hitting the expired
entry for key `k` (which calls `scheduleRefresh k`), or the refresh
goroutine for `k` finishing with success flag `b`. -/
inductive RefreshEvent where
  | sched (k : Nat)
  | done (k : Nat) (succ : Bool)
  deriving DecidableEq, Repr

/-- The shared state of the single-flight protocol: the `inflight` set
guarded by the cache mutex, plus (for the statement of the invariant)
the number of refresh goroutines currently running per key. -/
structure RefreshState where
  inflight : List Nat
  running : Nat → Nat

/-- One step of the single-flight protocol: `sched` performs
`scheduleBegin` and spawns a goroutine only when it returned `true`;
`done` performs the deferred `refreshFinish` and retires the goroutine.
The success flag of `done` is deliberately unused: the marker is cleared
in the deferred block whether or not the refresh failed. -/
def stepRefresh (s : RefreshState) (e : RefreshEvent) : RefreshState :=
  match e with
  | .sched k =>
    let p := scheduleBegin s.inflight k
    { inflight := p.1,
      running := if p.2 then
          (fun k' => if k' = k then s.running k' + 1 else s.running k')
        else s.running }
  | .done k _ =>
    { inflight := refreshFinish s.inflight k,
      running := fun k' => if k' = k then s.running k' - 1 else s.running k' }

/-- States reachable from the initial state (empty in-flight set, no
goroutines) by valid steps: a `done k` step needs a running goroutine
for `k` to exist. -/
inductive ReachableR : RefreshState → Prop where
  | init : ReachableR ⟨[], fun _ => 0⟩
  | sched (s : RefreshState) (k : Nat) : ReachableR s →
      ReachableR (stepRefresh s (.sched k))
  | done (s : RefreshState) (k : Nat) (b : Bool) : ReachableR s →
      0 < s.running k → ReachableR (stepRefresh s (.done k b))

/-- What `cacheManager.Query` serves, as a function of the lookup result
(`none` = miss, `some (m, expired)` = hit) and the `lazy` flag: a fresh
hit is served from cache; an expired hit is served stale under `lazy`
(scheduling a refresh), otherwise removed and resolved downstream. -/
inductive ServeOutcome (Msg : Type) where
  | fresh (m : Msg)
  | stale (m : Msg)
  | fromDownstream

/-- The serve decision of `cacheManager.Query` (cache.go:514). -/
def cacheQueryServe {Msg : Type} (lookup : Option (Msg × Bool)) (lazy : Bool) :
    ServeOutcome Msg :=
  match lookup with
  | none => .fromDownstream
  | some (m, false) => .fresh m
  | some (m, true) => if lazy then .stale m else .fromDownstream

/-! ### Group resolver (`groupResolver.Query`, resolver/group.go:154, and
`Group.pickResolvers`/`Group.Query`, outbound/manager.go) -/

/-- The child pick of `groupResolver.Query` (resolver package): the
resolver indices dispatched are `(i+pos) % N` for `i < concurrent`,
where `pos` is one fresh random value per call. -/
def groupPickRotation (concurrent pos n : Nat) : List Nat :=
  (List.range concurrent).map (fun i => (i + pos) % n)

/-- Embedding of `Group.pickResolvers` (outbound/manager.go:124): the
count is `parallel` clamped down to the number of resolvers; the index
array `0..n-1` is shuffled — `rand.Shuffle` is Go standard library code,
abstracted by passing the shuffled array together with the hypothesis
that it is a permutation of `range n` — and the first `count` shuffled
indices are selected. -/
def pickResolvers (parallel n : Nat) (shuffled : List Nat) : List Nat :=
  shuffled.take (min parallel n)

/-- The first error among the arrival errors, mirroring
`if firstErr == nil { firstErr = resp.err }` folded over the loop. -/
def firstSomeErr {Msg : Type} : List (Option Msg × Option GoErr) → Option GoErr
  | [] => none
  | p :: rest => p.2.or (firstSomeErr rest)

/-- Embedding of the collection loop of `Group.Query`
(outbound/manager.go:106-121): walk the arrivals in completion order;
the first arrival with no error and a non-nil message wins; otherwise
remember the first non-nil error; with no winner return the first error,
or the synthetic `all outbound resolvers failed` error when none was
observed. -/
def groupWaitLoop {Msg : Type} :
    List (Option Msg × Option GoErr) → Option GoErr → Except GoErr Msg
  | [], some e => .error e
  | [], none => .error .allResolversFailed
  | (some m, none) :: _, _ => .ok m
  | (none, e) :: rest, fe => groupWaitLoop rest (fe.or e)
  | (some _, some e) :: rest, fe => groupWaitLoop rest (fe.or (some e))

/-- `errgroup.Wait` of `groupResolver.Query`: the first error returned by
a child, in completion order. -/
def egFirstErr {Msg : Type} : List (Except GoErr Msg) → Option GoErr
  | [] => none
  | .error e :: _ => some e
  | .ok _ :: rest => egFirstErr rest

/-- The `atomic.Value` of `groupResolver.Query`: it holds the success
stored last, in completion order. -/
def egLastOk {Msg : Type} : List (Except GoErr Msg) → Option Msg
  | [] => none
  | .error _ :: rest => egLastOk rest
  | .ok m :: rest => some ((egLastOk rest).getD m)

/-- Embedding of the tail of `groupResolver.Query` (group.go:182-192):
after `eg.Wait`, a stored result wins; otherwise the `Wait` error is
returned; otherwise the synthetic `no err return and no dns record
found?` error. -/
def groupResolverQueryOutcome {Msg : Type} (outcomes : List (Except GoErr Msg)) :
    Except GoErr Msg :=
  match egLastOk outcomes with
  | some v => .ok v
  | none =>
    match egFirstErr outcomes with
    | some e => .error e
    | none => .error .noErrNoRecord

/-! ### Geosite binary decoder (src/internal/matcher/geosite/parser.go) -/

/-- A byte of the input slice. -/
abbrev Byte := Fin 256

/-- Errors of the geosite decoder, one constructor per distinct error
message of the source (the `unexpected wire type %d for ...` family is
collapsed onto one constructor carrying the wire type). -/
inductive PErr : Type where
  | unexpectedEnd
  | varintOverflow
  | invalidTag
  | invalidLength
  | unexpectedWireType (wt : Nat)
  | unsupportedWireType (wt : Nat)
  | emptyDomainValue
  deriving DecidableEq, Repr

/-- The offset after a successful read, refined by the bounds the Go
code maintains: strictly past the start, at most the slice length. -/
def OffsetAfter (data : List Byte) (offset : Nat) :=
  {o : Nat // offset < o ∧ o ≤ data.length}

/-- Embedding of the loop of `readVarint`: `value` and `shift` are the
loop state; every iteration bounds-checks the offset before reading,
ors the low 7 bits of the byte into `value` at position `shift` (the Go
`uint64` wrap-around of the shift is made explicit by `% 2 ^ 64`),
stops when the continuation bit is clear, and rejects the varint once
`shift` would reach 64. -/
def readVarintAux (d : List Byte) (offset value shift : Nat) :
    Except PErr (Nat × OffsetAfter d offset) :=
  if h : offset < d.length then
    if (d.get ⟨offset, h⟩).val < 128 then
      .ok (value ||| ((d.get ⟨offset, h⟩).val % 128) * 2 ^ shift % 2 ^ 64,
        ⟨offset + 1, by omega⟩)
    else if 64 ≤ shift + 7 then
      .error .varintOverflow
    else
      match readVarintAux d (offset + 1)
          (value ||| ((d.get ⟨offset, h⟩).val % 128) * 2 ^ shift % 2 ^ 64)
          (shift + 7) with
      | .error e => .error e
      | .ok (v, ⟨o, ho⟩) => .ok (v, ⟨o, by omega⟩)
  else
    .error .unexpectedEnd
termination_by d.length - offset

/-- Embedding of `readVarint` (initial loop state). -/
def readVarint (data : List Byte) (offset : Nat) :
    Except PErr (Nat × OffsetAfter data offset) :=
  readVarintAux data offset 0 0

/-- Embedding of `readTag`: a varint, rejected when zero, split into
field number (`>> 3`) and wire type (`& 0x7`). -/
def readTag (data : List Byte) (offset : Nat) :
    Except PErr (Nat × Nat × OffsetAfter data offset) :=
  match readVarint data offset with
  | .error e => .error e
  | .ok (v, o) => if v = 0 then .error .invalidTag else .ok (v / 8, v % 8, o)

/-- Embedding of `readBytes`: a varint length, rejected when it exceeds
the remaining bytes, then the sub-slice of that length. -/
def readBytes (data : List Byte) (offset : Nat) :
    Except PErr (List Byte × OffsetAfter data offset) :=
  match readVarint data offset with
  | .error e => .error e
  | .ok (len, ⟨o, ho⟩) =>
    if hl : data.length - o < len then .error .invalidLength
    else .ok ((data.drop o).take len, ⟨o + len, by omega⟩)

/-- Embedding of `skipBytes`: advance by `n`, rejected when that runs
past the end. -/
def skipBytes (data : List Byte) (offset n : Nat) :
    Except PErr {o : Nat // offset ≤ o ∧ o ≤ data.length} :=
  if h : data.length < offset + n then .error .unexpectedEnd
  else .ok ⟨offset + n, by omega⟩

mutual

/-- Embedding of `skipField`: skip one field of the given wire type —
varint, 64-bit, length-delimited, group, 32-bit; an end-group tag is
consumed by the enclosing `skipGroup`, so wire type 4 does not move the
offset; unknown wire types are rejected. -/
def skipField (data : List Byte) (offset : Nat) (hoff : offset ≤ data.length)
    (wt : Nat) : Except PErr {o : Nat // offset ≤ o ∧ o ≤ data.length} :=
  if wt = 0 then
    match readVarint data offset with
    | .error e => .error e
    | .ok (_, ⟨o, ho⟩) => .ok ⟨o, by omega⟩
  else if wt = 1 then
    skipBytes data offset 8
  else if wt = 2 then
    match readBytes data offset with
    | .error e => .error e
    | .ok (_, ⟨o, ho⟩) => .ok ⟨o, by omega⟩
  else if wt = 3 then
    match skipGroup data offset with
    | .error e => .error e
    | .ok ⟨o, ho⟩ => .ok ⟨o, by omega⟩
  else if wt = 4 then
    .ok ⟨offset, by omega⟩
  else if wt = 5 then
    skipBytes data offset 4
  else
    .error (.unsupportedWireType wt)
termination_by (data.length - offset, 1)

/-- Embedding of the group-skipping loop inside `skipField` (wire type
3): read tags until the matching end-group tag, recursively skipping
every nested field. -/
def skipGroup (data : List Byte) (offset : Nat) :
    Except PErr {o : Nat // offset < o ∧ o ≤ data.length} :=
  match h : readTag data offset with
  | .error e => .error e
  | .ok (_, nextWire, ⟨o1, ho1⟩) =>
    if nextWire = 4 then .ok ⟨o1, ho1⟩
    else
      match skipField data o1 (by omega) nextWire with
      | .error e => .error e
      | .ok ⟨o2, ho2⟩ =>
        match skipGroup data o2 with
        | .error e => .error e
        | .ok ⟨o3, ho3⟩ => .ok ⟨o3, by omega⟩
termination_by (data.length - offset, 0)

end

/-- Go `strings.TrimSpace` / `strings.ToLower` over the ASCII byte range
(the decoder applies them to category names and attribute keys). -/
def isSpaceByte (b : Byte) : Bool :=
  b.val = 32 || b.val = 9 || b.val = 10 || b.val = 11 || b.val = 12 || b.val = 13

def trimSpaceBytes (s : List Byte) : List Byte :=
  ((s.dropWhile isSpaceByte).reverse.dropWhile isSpaceByte).reverse

def toLowerByte (b : Byte) : Byte :=
  if h : 65 ≤ b.val ∧ b.val ≤ 90 then ⟨b.val + 32, by omega⟩ else b

def toLowerBytes (s : List Byte) : List Byte := s.map toLowerByte

/-- Go's `int64(val)` conversion of the wrapped `uint64` varint value. -/
def int64OfUint64 (v : Nat) : Int :=
  if v < 2 ^ 63 then (v : Int) else (v : Int) - 2 ^ 64

/-- `domainAttribute`: optional bool value (field 2) and int value
(field 3). -/
structure DomainAttribute where
  boolValue : Option Bool
  intValue : Option Int
  deriving DecidableEq, Repr

/-- `geoDomain`: type (field 1), value (field 2), attribute map
(field 3). -/
structure GeoDomain where
  typ : Int
  value : List Byte
  attributes : List (List Byte × DomainAttribute)
  deriving DecidableEq, Repr

/-- `geoSite`: category name (field 1) and its domain records
(field 2). -/
structure GeoSiteEntry where
  name : List Byte
  domains : List GeoDomain
  deriving DecidableEq, Repr

/-- Go map assignment `m[k] = v` over an association list kept in
insertion order. -/
def mapAssign (m : List (List Byte × DomainAttribute)) (k : List Byte)
    (v : DomainAttribute) : List (List Byte × DomainAttribute) :=
  match m with
  | [] => [(k, v)]
  | (k', v') :: rest =>
    if k' = k then (k', v) :: rest else (k', v') :: mapAssign rest k v

/-- Go `m[k] = append(m[k], vs...)` over an association list kept in
insertion order. -/
def mapAppend (m : List (List Byte × List GeoDomain)) (k : List Byte)
    (vs : List GeoDomain) : List (List Byte × List GeoDomain) :=
  match m with
  | [] => [(k, vs)]
  | (k', v') :: rest =>
    if k' = k then (k', v' ++ vs) :: rest else (k', v') :: mapAppend rest k vs

/-- Embedding of the loop of `parseDomainAttribute`: field 1 is the
(lowercased, trimmed) key, field 2 the bool value, field 3 the int
value; unknown fields are skipped; wrong wire types are rejected. -/
def parseDomainAttributeLoop (data : List Byte) (offset : Nat)
    (_hoff : offset ≤ data.length) (key : List Byte) (attr : DomainAttribute) :
    Except PErr (DomainAttribute × List Byte) :=
  if h : offset < data.length then
    match readTag data offset with
    | .error e => .error e
    | .ok (fieldNum, wireType, ⟨o1, ho1⟩) =>
      if fieldNum = 1 then
        if hw : wireType = 2 then
          match readBytes data o1 with
          | .error e => .error e
          | .ok (str, ⟨o2, ho2⟩) =>
            parseDomainAttributeLoop data o2 (by omega)
              (toLowerBytes (trimSpaceBytes str)) attr
        else .error (.unexpectedWireType wireType)
      else if fieldNum = 2 then
        if hw : wireType = 0 then
          match readVarint data o1 with
          | .error e => .error e
          | .ok (v, ⟨o2, ho2⟩) =>
            parseDomainAttributeLoop data o2 (by omega) key
              { attr with boolValue := some (v ≠ 0) }
        else .error (.unexpectedWireType wireType)
      else if fieldNum = 3 then
        if hw : wireType = 0 then
          match readVarint data o1 with
          | .error e => .error e
          | .ok (v, ⟨o2, ho2⟩) =>
            parseDomainAttributeLoop data o2 (by omega) key
              { attr with intValue := some (int64OfUint64 v) }
        else .error (.unexpectedWireType wireType)
      else
        match skipField data o1 (by omega) wireType with
        | .error e => .error e
        | .ok ⟨o2, ho2⟩ => parseDomainAttributeLoop data o2 (by omega) key attr
  else
    .ok (attr, key)
termination_by data.length - offset

/-- Embedding of `parseDomainAttribute` over one attribute message. -/
def parseDomainAttribute (msg : List Byte) : Except PErr (DomainAttribute × List Byte) :=
  parseDomainAttributeLoop msg 0 (Nat.zero_le _) [] ⟨none, none⟩

/-- Embedding of the loop of `parseGeoDomain`: field 1 is the type
(varint), field 2 the (trimmed) value, field 3 a nested attribute
message; unknown fields are skipped; wrong wire types rejected. -/
def parseGeoDomainLoop (data : List Byte) (offset : Nat)
    (_hoff : offset ≤ data.length) (result : GeoDomain) : Except PErr GeoDomain :=
  if h : offset < data.length then
    match readTag data offset with
    | .error e => .error e
    | .ok (fieldNum, wireType, ⟨o1, ho1⟩) =>
      if fieldNum = 1 then
        if hw : wireType = 0 then
          match readVarint data o1 with
          | .error e => .error e
          | .ok (v, ⟨o2, ho2⟩) =>
            parseGeoDomainLoop data o2 (by omega) { result with typ := int64OfUint64 v }
        else .error (.unexpectedWireType wireType)
      else if fieldNum = 2 then
        if hw : wireType = 2 then
          match readBytes data o1 with
          | .error e => .error e
          | .ok (str, ⟨o2, ho2⟩) =>
            parseGeoDomainLoop data o2 (by omega) { result with value := trimSpaceBytes str }
        else .error (.unexpectedWireType wireType)
      else if fieldNum = 3 then
        if hw : wireType = 2 then
          match readBytes data o1 with
          | .error e => .error e
          | .ok (msg, ⟨o2, ho2⟩) =>
            match parseDomainAttribute msg with
            | .error e => .error e
            | .ok (attr, key) =>
              parseGeoDomainLoop data o2 (by omega)
                (if key ≠ [] then
                  { result with attributes := mapAssign result.attributes key attr }
                else result)
        else .error (.unexpectedWireType wireType)
      else
        match skipField data o1 (by omega) wireType with
        | .error e => .error e
        | .ok ⟨o2, ho2⟩ => parseGeoDomainLoop data o2 (by omega) result
  else
    if result.value = [] then .error .emptyDomainValue else .ok result
termination_by data.length - offset

/-- Embedding of `parseGeoDomain` over one domain message. -/
def parseGeoDomain (msg : List Byte) : Except PErr GeoDomain :=
  parseGeoDomainLoop msg 0 (Nat.zero_le _) ⟨0, [], []⟩

/-- Embedding of the loop of `parseGeoSite`: field 1 is the category
name (lowercased, trimmed), repeated field 2 the domain records. -/
def parseGeoSiteLoop (data : List Byte) (offset : Nat)
    (_hoff : offset ≤ data.length) (entry : GeoSiteEntry) : Except PErr GeoSiteEntry :=
  if h : offset < data.length then
    match readTag data offset with
    | .error e => .error e
    | .ok (fieldNum, wireType, ⟨o1, ho1⟩) =>
      if fieldNum = 1 then
        if hw : wireType = 2 then
          match readBytes data o1 with
          | .error e => .error e
          | .ok (str, ⟨o2, ho2⟩) =>
            parseGeoSiteLoop data o2 (by omega)
              { entry with name := toLowerBytes (trimSpaceBytes str) }
        else .error (.unexpectedWireType wireType)
      else if fieldNum = 2 then
        if hw : wireType = 2 then
          match readBytes data o1 with
          | .error e => .error e
          | .ok (msg, ⟨o2, ho2⟩) =>
            match parseGeoDomain msg with
            | .error e => .error e
            | .ok domain =>
              parseGeoSiteLoop data o2 (by omega)
                { entry with domains := entry.domains ++ [domain] }
        else .error (.unexpectedWireType wireType)
      else
        match skipField data o1 (by omega) wireType with
        | .error e => .error e
        | .ok ⟨o2, ho2⟩ => parseGeoSiteLoop data o2 (by omega) entry
  else
    .ok entry
termination_by data.length - offset

/-- Embedding of `parseGeoSite` over one GeoSite message. -/
def parseGeoSite (msg : List Byte) : Except PErr GeoSiteEntry :=
  parseGeoSiteLoop msg 0 (Nat.zero_le _) ⟨[], []⟩

/-- Embedding of the loop of `parseGeoSiteList`: repeated field 1 holds
GeoSite messages; entries with an empty name are dropped; all other
fields are skipped by wire type. -/
def parseGeoSiteListLoop (data : List Byte) (offset : Nat)
    (_hoff : offset ≤ data.length) (result : List (List Byte × List GeoDomain)) :
    Except PErr (List (List Byte × List GeoDomain)) :=
  if h : offset < data.length then
    match readTag data offset with
    | .error e => .error e
    | .ok (fieldNum, wireType, ⟨o1, ho1⟩) =>
      if fieldNum = 1 ∧ wireType = 2 then
        match readBytes data o1 with
        | .error e => .error e
        | .ok (msg, ⟨o2, ho2⟩) =>
          match parseGeoSite msg with
          | .error e => .error e
          | .ok entry =>
            if entry.name = [] then
              parseGeoSiteListLoop data o2 (by omega) result
            else
              parseGeoSiteListLoop data o2 (by omega)
                (mapAppend result entry.name entry.domains)
      else
        match skipField data o1 (by omega) wireType with
        | .error e => .error e
        | .ok ⟨o2, ho2⟩ => parseGeoSiteListLoop data o2 (by omega) result
  else
    .ok result
termination_by data.length - offset

/-- Embedding of `parseGeoSiteList` over a whole input slice. -/
def parseGeoSiteList (data : List Byte) :
    Except PErr (List (List Byte × List GeoDomain)) :=
  parseGeoSiteListLoop data 0 (Nat.zero_le _) []

/-! ### Expression compiler (src/internal/matcher/expression.go) -/

/-- Tokens of the expression language, as produced by
`tokenizeExpression`; matcher names are abstracted to numbers. -/
inductive Tok where
  | ident (s : Nat)
  | tAnd
  | tOr
  | tNot
  | lparen
  | rparen
  deriving DecidableEq, Repr

/-- Embedding of `precedence`. -/
def prec : Tok → Nat
  | .tNot => 3
  | .tAnd => 2
  | .tOr => 1
  | _ => 0

/-- The pop loop run for a `!` token: pop while the top is not `(` and
binds strictly tighter than `!`.  Returns the popped operators in pop
order and the remaining stack. -/
def popNot : List Tok → List Tok × List Tok
  | [] => ([], [])
  | op :: rest =>
    if op ≠ .lparen ∧ prec .tNot < prec op then
      let p := popNot rest
      (op :: p.1, p.2)
    else ([], op :: rest)

/-- The pop loop run for a binary token of precedence `p`: pop while the
top has precedence ≥ `p`, stopping at `(`. -/
def popBin (p : Nat) : List Tok → List Tok × List Tok
  | [] => ([], [])
  | op :: rest =>
    if p ≤ prec op then
      if op = .lparen then ([], op :: rest)
      else
        let q := popBin p rest
        (op :: q.1, q.2)
    else ([], op :: rest)

/-- The pop loop run for a `)` token: pop until the matching `(`;
`none` when there is none (mismatched parentheses). -/
def popParen : List Tok → Option (List Tok × List Tok)
  | [] => none
  | op :: rest =>
    if op = .lparen then some ([], rest)
    else
      match popParen rest with
      | none => none
      | some (out, rest') => some (op :: out, rest')

/-- The final flush of `shuntingYard`: pop every remaining operator;
a parenthesis left on the stack is a mismatch. -/
def syFlush : List Tok → Except GoErr (List Tok)
  | [] => .ok []
  | op :: rest =>
    if op = .lparen ∨ op = .rparen then .error .mismatchedParens
    else
      match syFlush rest with
      | .error e => .error e
      | .ok out => .ok (op :: out)

/-- Embedding of the token loop of `shuntingYard`, with the produced
postfix sequence in `output` and the operator stack in `ops` (head =
top of stack). -/
def syLoop : List Tok → List Tok → List Tok → Except GoErr (List Tok)
  | [], output, ops =>
    match syFlush ops with
    | .error e => .error e
    | .ok flushed => .ok (output ++ flushed)
  | .ident s :: rest, output, ops => syLoop rest (output ++ [.ident s]) ops
  | .tNot :: rest, output, ops =>
    let p := popNot ops
    syLoop rest (output ++ p.1) (.tNot :: p.2)
  | .tAnd :: rest, output, ops =>
    let p := popBin (prec .tAnd) ops
    syLoop rest (output ++ p.1) (.tAnd :: p.2)
  | .tOr :: rest, output, ops =>
    let p := popBin (prec .tOr) ops
    syLoop rest (output ++ p.1) (.tOr :: p.2)
  | .lparen :: rest, output, ops => syLoop rest output (.lparen :: ops)
  | .rparen :: rest, output, ops =>
    match popParen ops with
    | none => .error .mismatchedParens
    | some (popped, rest') => syLoop rest (output ++ popped) rest'

/-- Embedding of `shuntingYard`. -/
def shuntingYard (tokens : List Tok) : Except GoErr (List Tok) :=
  syLoop tokens [] []

/-- The compiled evaluation tree (`exprNode`): leaves hold the matcher
resolved from the registry (`matcherNode`), inner nodes are `notNode`
and `binaryNode` with its two operators. -/
inductive ExprNode (α : Type) where
  | leaf (m : α)
  | notN (child : ExprNode α)
  | andN (l r : ExprNode α)
  | orN (l r : ExprNode α)
  deriving DecidableEq, Repr

/-- Embedding of the postfix-folding loop of `parseExpression`; the
stack holds built sub-trees, head = top (the Go slice's last element). -/
def parseRPNLoop {α : Type} (reg : Nat → Option α) :
    List Tok → List (ExprNode α) → Except GoErr (ExprNode α)
  | [], [x] => .ok x
  | [], _ => .error .unresolvedOperands
  | .ident s :: rest, stack =>
    match reg s with
    | none => .error (.matcherNotFound s)
    | some m => parseRPNLoop reg rest (.leaf m :: stack)
  | .tNot :: rest, stack =>
    match stack with
    | [] => .error .missingOperandNot
    | operand :: stack' => parseRPNLoop reg rest (.notN operand :: stack')
  | .tAnd :: rest, stack =>
    match stack with
    | right :: left :: stack' => parseRPNLoop reg rest (.andN left right :: stack')
    | _ => .error .missingOperandBin
  | .tOr :: rest, stack =>
    match stack with
    | right :: left :: stack' => parseRPNLoop reg rest (.orN left right :: stack')
    | _ => .error .missingOperandBin
  | .lparen :: _, _ => .error .unexpectedRpnToken
  | .rparen :: _, _ => .error .unexpectedRpnToken

/-- Embedding of `parseExpression`: shunting-yard to postfix, then fold
the postfix sequence into a tree. -/
def parseExpression {α : Type} (tokens : List Tok) (reg : Nat → Option α) :
    Except GoErr (ExprNode α) :=
  match shuntingYard tokens with
  | .error e => .error e
  | .ok rpn => parseRPNLoop reg rpn []

/-- Embedding of node evaluation (`matcherNode.eval`, `notNode.eval`,
`binaryNode.eval`): NOT negates after evaluating its child, AND returns
false without evaluating the right operand when the left is false, OR
returns true without evaluating the right operand when the left is
true; errors propagate. -/
def evalNode {α : Type} (f : α → Except GoErr Bool) : ExprNode α → Except GoErr Bool
  | .leaf m => f m
  | .notN c =>
    match evalNode f c with
    | .error e => .error e
    | .ok b => .ok (!b)
  | .andN l r =>
    match evalNode f l with
    | .error e => .error e
    | .ok false => .ok false
    | .ok true => evalNode f r
  | .orN l r =>
    match evalNode f l with
    | .error e => .error e
    | .ok true => .ok true
    | .ok false => evalNode f r

/-- `evalNode` instrumented with the list of matchers invoked, in
invocation order; the first component is exactly `evalNode`. -/
def evalT {α : Type} (f : α → Except GoErr Bool) :
    ExprNode α → Except GoErr Bool × List α
  | .leaf m => (f m, [m])
  | .notN c =>
    let p := evalT f c
    match p.1 with
    | .error e => (.error e, p.2)
    | .ok b => (.ok (!b), p.2)
  | .andN l r =>
    let p := evalT f l
    match p.1 with
    | .error e => (.error e, p.2)
    | .ok false => (.ok false, p.2)
    | .ok true =>
      let q := evalT f r
      (q.1, p.2 ++ q.2)
  | .orN l r =>
    let p := evalT f l
    match p.1 with
    | .error e => (.error e, p.2)
    | .ok true => (.ok true, p.2)
    | .ok false =>
      let q := evalT f r
      (q.1, p.2 ++ q.2)

/-- Surface expressions of the rule language: identifiers combined with
`not`, `and`, `or` (and parentheses, which the printer `pr` inserts
wherever the precedence order `or < and < not` requires them). -/
inductive SExpr where
  | ident (s : Nat)
  | notE (e : SExpr)
  | andE (l r : SExpr)
  | orE (l r : SExpr)
  deriving DecidableEq, Repr

/-- The boolean function denoted by a surface expression. -/
def bsem (f : Nat → Bool) : SExpr → Bool
  | .ident s => f s
  | .notE e => !(bsem f e)
  | .andE l r => bsem f l && bsem f r
  | .orE l r => bsem f l || bsem f r

/-- The matchers a short-circuiting evaluation of a surface expression
invokes, in order: AND skips its right operand when the left is false,
OR skips its right operand when the left is true. -/
def strace (f : Nat → Bool) : SExpr → List Nat
  | .ident s => [s]
  | .notE e => strace f e
  | .andE l r => strace f l ++ (if bsem f l then strace f r else [])
  | .orE l r => strace f l ++ (if bsem f l then [] else strace f r)

/-- The identifiers of a surface expression. -/
def ids : SExpr → List Nat
  | .ident s => [s]
  | .notE e => ids e
  | .andE l r => ids l ++ ids r
  | .orE l r => ids l ++ ids r

/-- Printing a surface expression to tokens at context level `lvl`
(`or` = 1, `and` = 2, `not` = 3): binary operators print their left
child at their own level (left associativity) and their right child one
level higher; a node whose precedence is below the context level is
parenthesized. -/
def pr : SExpr → Nat → List Tok
  | .ident s, _ => [.ident s]
  | .notE e, _ => .tNot :: pr e 3
  | .andE l r, lvl =>
    if 2 < lvl then .lparen :: (pr l 2 ++ [.tAnd] ++ pr r 3) ++ [.rparen]
    else pr l 2 ++ [.tAnd] ++ pr r 3
  | .orE l r, lvl =>
    if 1 < lvl then .lparen :: (pr l 1 ++ [.tOr] ++ pr r 2) ++ [.rparen]
    else pr l 1 ++ [.tOr] ++ pr r 2

/-- The postfix (RPN) form of a surface expression. -/
def post : SExpr → List Tok
  | .ident s => [.ident s]
  | .notE e => post e ++ [.tNot]
  | .andE l r => post l ++ post r ++ [.tAnd]
  | .orE l r => post l ++ post r ++ [.tOr]

/-- The state of `shuntingYard` after consuming `pr e lvl`: the tokens
already emitted to the output (`.1`) and the operators of `e` still
pending on the stack, top first (`.2`). -/
def frontPend : SExpr → Nat → List Tok × List Tok
  | .ident s, _ => ([.ident s], [])
  | .notE e, _ =>
    let p := frontPend e 3
    (p.1, p.2 ++ [.tNot])
  | .andE l r, lvl =>
    if 2 < lvl then (post (.andE l r), [])
    else
      let pl := frontPend l 2
      let qr := frontPend r 3
      (pl.1 ++ pl.2 ++ qr.1, qr.2 ++ [.tAnd])
  | .orE l r, lvl =>
    if 1 < lvl then (post (.orE l r), [])
    else
      let pl := frontPend l 1
      let qr := frontPend r 2
      (pl.1 ++ pl.2 ++ qr.1, qr.2 ++ [.tOr])

/-- A stack top that the processing of an expression printed at level
`lvl` will not pop into: empty, a `(`, an operator binding looser than
`lvl`, or — only at the `not` level — another `!` (which `!` does not
pop, its pop condition being strict). -/
def barrier (ops : List Tok) (lvl : Nat) : Prop :=
  match ops with
  | [] => True
  | t :: _ => t = .lparen ∨ prec t < lvl ∨ (t = .tNot ∧ lvl = 3)

/-- The evaluation tree a registry resolving identifier `s` to matcher
`mf s` yields for a surface expression. -/
def mapTree {α : Type} (mf : Nat → α) : SExpr → ExprNode α
  | .ident s => .leaf (mf s)
  | .notE e => .notN (mapTree mf e)
  | .andE l r => .andN (mapTree mf l) (mapTree mf r)
  | .orE l r => .orN (mapTree mf l) (mapTree mf r)

/-- The expression `a && ! b || c` (identifiers 1, 2, 3) used by the C1
witness. -/
def exprW : SExpr := .orE (.andE (.ident 1) (.notE (.ident 2))) (.ident 3)

/-! ### Domain matcher (src/internal/matcher/domain/domain.go,
src/unnamed/part_016 `suffixNode`, src/internal/matcher/domain/aho.go) -/

/-- ASCII lowercase of one character (Go `strings.ToLower` restricted to
the ASCII range the matcher operates on). -/
def toLowerChar (c : Char) : Char :=
  if 65 ≤ c.toNat ∧ c.toNat ≤ 90 then Char.ofNat (c.toNat + 32) else c

def lowerStr (s : List Char) : List Char := s.map toLowerChar

def isSpaceChar (c : Char) : Bool :=
  c = ' ' || c = '\t' || c = '\n' || c = '\r'

def trimSpaceChars (s : List Char) : List Char :=
  ((s.dropWhile isSpaceChar).reverse.dropWhile isSpaceChar).reverse

/-- Go `strings.TrimSuffix(name, ".")`: remove one trailing dot. -/
def trimSuffixDot (s : List Char) : List Char :=
  if s.getLast? = some '.' then s.dropLast else s

/-- Modelled from the spec: `matcher.NormalizeDomain` is not under src/
(only its callers are); the spec says pattern values and query names are
"lowercased and trailing-dot-stripped", and the identically-named
`routing.NormalizeDomain` in src/ is
`ToLower(TrimSpace(TrimSuffix(name, ".")))`, which this follows. -/
def NormalizeDomain (s : List Char) : List Char :=
  lowerStr (trimSpaceChars (trimSuffixDot s))

/-- Go `strings.Split(domain, ".")`: split at every dot, keeping empty
segments; the result is never empty. -/
def splitOnDot : List Char → List (List Char)
  | [] => [[]]
  | c :: rest =>
    if c = '.' then [] :: splitOnDot rest
    else
      match splitOnDot rest with
      | [] => [[c]]
      | l :: ls => (c :: l) :: ls

/-- `strings.Join(labels, ".")`: the inverse of `splitOnDot`. -/
def joinDots : List (List Char) → List Char
  | [] => []
  | [l] => l
  | l :: ls => l ++ '.' :: joinDots ls

/-- The label trie of `suffixNode` (src/unnamed/part_016): children are
keyed by label, with Go's `map[string]*suffixNode` embedded as an
association list. -/
inductive STrie where
  | node (children : List (List Char × STrie)) (terminal : Bool)

/-- Lookup in a `suffixNode` child map. -/
def sFind : List (List Char × STrie) → List Char → Option STrie
  | [], _ => none
  | (k, v) :: rest, key => if k = key then some v else sFind rest key

/-- Assignment in a `suffixNode` child map. -/
def sPut : List (List Char × STrie) → List Char → STrie → List (List Char × STrie)
  | [], key, t => [(key, t)]
  | (k, v) :: rest, key, t =>
    if k = key then (k, t) :: rest else (k, v) :: sPut rest key t

/-- The walk of `suffixNode.add` over the labels already reversed
(Go iterates `i` from the last label down to the first). -/
def addRev : STrie → List (List Char) → STrie
  | .node cs _, [] => .node cs true
  | .node cs term, lbl :: rest =>
    let child := (sFind cs lbl).getD (.node [] false)
    .node (sPut cs lbl (addRev child rest)) term

/-- Embedding of `suffixNode.add`: empty domains are ignored; otherwise
insert the reversed label path and mark its end terminal. -/
def STrie.add (t : STrie) (domain : List Char) : STrie :=
  if domain = [] then t else addRev t (splitOnDot domain).reverse

/-- The walk of `suffixNode.match` over reversed labels: step down per
label, succeeding as soon as a terminal node is reached (suffix
semantics); at the end of the labels the current node's terminal flag
decides. -/
def matchRev : STrie → List (List Char) → Bool
  | .node _ term, [] => term
  | .node cs _, lbl :: rest =>
    match sFind cs lbl with
    | none => false
    | some child =>
      match child with
      | .node _ cterm => if cterm then true else matchRev child rest

/-- Embedding of `suffixNode.match`: empty domains never match. -/
def STrie.matchSuffix (t : STrie) (domain : List Char) : Bool :=
  if domain = [] then false else matchRev t (splitOnDot domain).reverse

/-- The exact-match walk over reversed labels: as `matchRev` but without
the early terminal exit — only the node at the end of the labels
decides. -/
def matchExactRev : STrie → List (List Char) → Bool
  | .node _ term, [] => term
  | .node cs _, lbl :: rest =>
    match sFind cs lbl with
    | none => false
    | some child => matchExactRev child rest

/-- Modelled from the spec: `domainTrie.matchExact` is not under src/
(only trie_test.go is); the spec says the `full` trie is a "label-based
trie for O(labels) exact lookup", and the unit tests fix that
`www.example.com` does not exact-match an `example.com` entry, i.e.
there is no early terminal exit. -/
def STrie.matchExact (t : STrie) (domain : List Char) : Bool :=
  if domain = [] then false else matchExactRev t (splitOnDot domain).reverse

/-! #### Aho–Corasick keyword automaton (aho.go)

`ahoNode` pointers are embedded by the string each node spells from the
root, so the trie is the inductive `CTrie`; `build`'s BFS assigns each
node the longest proper suffix of its spell that is again a node
(`child.fail`) and propagates terminal outputs along these links
(`child.output`) — the functions `failOf` and `outProp` below are the
values these assignments realize, and the theorems
`failOf_build_recurrence` and `outProp_build_recurrence` prove that
they satisfy exactly the recurrences the BFS computes. -/

/-- The keyword trie of `ahoMatcher` (children keyed by character). -/
inductive CTrie where
  | node (out : Bool) (children : List (Char × CTrie))

def cFind : List (Char × CTrie) → Char → Option CTrie
  | [], _ => none
  | (k, v) :: rest, key => if k = key then some v else cFind rest key

def cPut : List (Char × CTrie) → Char → CTrie → List (Char × CTrie)
  | [], key, t => [(key, t)]
  | (k, v) :: rest, key, t =>
    if k = key then (k, t) :: rest else (k, v) :: cPut rest key t

/-- The child-creating walk of `ahoMatcher.add`. -/
def addChars : CTrie → List Char → CTrie
  | .node _ cs, [] => .node true cs
  | .node out cs, c :: rest =>
    let child := (cFind cs c).getD (.node false [])
    .node out (cPut cs c (addChars child rest))

/-- Walk a spelled string down the trie. -/
def walkT : CTrie → List Char → Option CTrie
  | t, [] => some t
  | t, c :: rest =>
    match t with
    | .node _ cs =>
      match cFind cs c with
      | none => none
      | some child => walkT child rest

/-- The spelled string names a node of the trie. -/
def inTrie (t : CTrie) (s : List Char) : Bool := (walkT t s).isSome

/-- The node spelled by `s` is terminal (a pattern ends there). -/
def termAt (t : CTrie) (s : List Char) : Bool :=
  match walkT t s with
  | some (.node out _) => out
  | none => false

/-- The longest suffix of `x` that names a trie node (the root `[]`
always does). -/
def longestTrieSuffix (t : CTrie) : (x : List Char) → {u : List Char // u <:+ x}
  | [] => ⟨[], List.suffix_rfl⟩
  | c :: rest =>
    if inTrie t (c :: rest) then ⟨c :: rest, List.suffix_rfl⟩
    else
      let p := longestTrieSuffix t rest
      ⟨p.val, p.property.trans (List.suffix_cons c rest)⟩

/-- The value `build` assigns to a node's fail pointer: the longest
proper suffix of its spell that is again a node (every proper suffix of
`s` is a suffix of `s.drop 1`). -/
def failOf (t : CTrie) (s : List Char) : List Char :=
  (longestTrieSuffix t (s.drop 1)).val

/-- The value `build` leaves in a node's output flag after propagation
along fail links: some pattern ends at a suffix of the spell. -/
def outProp (t : CTrie) (s : List Char) : Bool :=
  s.tails.any (fun u => termAt t u)

/-- The transition walk of `ahoMatcher.match` on one input character:
follow fail pointers while the current node has no matching child and
is not the root, then step into the child or fall back to the root. -/
def failChainStep (t : CTrie) (s : List Char) (c : Char) : List Char :=
  if _hs : s = [] then
    if inTrie t [c] then [c] else []
  else
    if inTrie t (s ++ [c]) then s ++ [c]
    else failChainStep t (failOf t s) c
termination_by s.length
decreasing_by
  have hlen : (failOf t s).length ≤ s.length - 1 := by
    have hsuf := (longestTrieSuffix t (s.drop 1)).property
    have := hsuf.length_le
    simpa [failOf] using this
  have : 0 < s.length := List.length_pos.mpr _hs
  omega

/-- The per-character loop of `ahoMatcher.match`: step, then succeed as
soon as the reached node's (propagated) output flag is set. -/
def ahoMatchLoop (t : CTrie) : List Char → List Char → Bool
  | _, [] => false
  | s, c :: rest =>
    let s' := failChainStep t s c
    if outProp t s' then true else ahoMatchLoop t s' rest

/-- The `ahoMatcher` value: the trie plus the pattern counter `add`
maintains. -/
structure AhoM where
  root : CTrie
  patterns : Nat

/-- Embedding of `ahoMatcher.add`: empty patterns are ignored; the
counter grows only when the end node was not already terminal. -/
def ahoAdd (m : AhoM) (p : List Char) : AhoM :=
  if p = [] then m
  else
    { root := addChars m.root p,
      patterns := if termAt m.root p then m.patterns else m.patterns + 1 }

/-- Embedding of `ahoMatcher.match`: an automaton with no patterns never
matches; otherwise run the loop from the root. -/
def ahoMatch (m : AhoM) (text : List Char) : Bool :=
  if m.patterns = 0 then false else ahoMatchLoop m.root [] text

/-! #### The assembled domain matcher (domain.go) -/

/-- The four pattern kinds of `domainMatcher.init`. -/
inductive DRKind where
  | suffix
  | full
  | keyword
  | regexp
  deriving DecidableEq, Repr

/-- The assembled `domainMatcher`: full trie, suffix trie, keyword
automaton and compiled regular expressions (the external regexp engine
is abstracted as the predicate a compiled pattern denotes). -/
structure DomainMatcherM where
  full : STrie
  suffix : STrie
  kw : AhoM
  reg : List (List Char → Bool)

/-- The empty matcher `newDomainMatcher` starts from. -/
def emptyDM : DomainMatcherM :=
  ⟨.node [] false, .node [] false, ⟨.node false [], 0⟩, []⟩

/-- One step of `domainMatcher.init`: suffix and full values are
normalized (`ToLower(NormalizeDomain(data))`), keyword values only
lowercased, regexp values compiled by the abstract `rxCompile`. -/
def initStep (rxCompile : List Char → (List Char → Bool)) (d : DomainMatcherM)
    (dr : DRKind × List Char) : DomainMatcherM :=
  match dr.1 with
  | .suffix => { d with suffix := d.suffix.add (lowerStr (NormalizeDomain dr.2)) }
  | .keyword => { d with kw := ahoAdd d.kw (lowerStr dr.2) }
  | .full => { d with full := d.full.add (lowerStr (NormalizeDomain dr.2)) }
  | .regexp => { d with reg := d.reg ++ [rxCompile dr.2] }

/-- Embedding of `domainMatcher.init` over already kind-split rules. -/
def initDM (rxCompile : List Char → (List Char → Bool))
    (drs : List (DRKind × List Char)) : DomainMatcherM :=
  drs.foldl (initStep rxCompile) emptyDM

/-- The name-level match of `domainMatcher.Match`: full, then suffix,
then keyword, then the regexps in order. -/
def matchName (d : DomainMatcherM) (name : List Char) : Bool :=
  if d.full.matchExact name then true
  else if d.suffix.matchSuffix name then true
  else if ahoMatch d.kw name then true
  else d.reg.any (fun r => r name)

/-- Embedding of `domainMatcher.Match`: reads `req.Question[0]` without
a bounds check — `none` models the index-out-of-range panic on an empty
question section; otherwise the result is a boolean with a nil error,
computed from the first question's normalized name. -/
def dmMatch (d : DomainMatcherM) (req : DnsMsg) : Option (Bool × Option GoErr) :=
  match req.question with
  | [] => none
  | q :: _ => some (matchName d (lowerStr (NormalizeDomain q.qname)), none)

/-- The normalized values `init` inserts into the full trie, in order. -/
def fullVals (drs : List (DRKind × List Char)) : List (List Char) :=
  drs.filterMap (fun dr =>
    if dr.1 = DRKind.full then some (lowerStr (NormalizeDomain dr.2)) else none)

/-- The normalized values `init` inserts into the suffix trie, in order. -/
def suffixVals (drs : List (DRKind × List Char)) : List (List Char) :=
  drs.filterMap (fun dr =>
    if dr.1 = DRKind.suffix then some (lowerStr (NormalizeDomain dr.2)) else none)

/-- The lowercased values `init` feeds to the keyword automaton, in order. -/
def kwVals (drs : List (DRKind × List Char)) : List (List Char) :=
  drs.filterMap (fun dr =>
    if dr.1 = DRKind.keyword then some (lowerStr dr.2) else none)

/-- The compiled regexp predicates `init` collects, in order. -/
def regVals (rxCompile : List Char → (List Char → Bool))
    (drs : List (DRKind × List Char)) : List (List Char → Bool) :=
  drs.filterMap (fun dr =>
    if dr.1 = DRKind.regexp then some (rxCompile dr.2) else none)

/-- Transcription of the claim's reference semantics for comparison: a
full pattern matches exactly the equal (normalized) name, a suffix
pattern matches a name equal to it or ending in `'.'` followed by it, a
keyword pattern matches a name containing it as a substring, and a
regexp pattern matches iff the compiled predicate holds; the matcher
normalizes both the pattern values and the query name. -/
def specDomainSemantics (rxCompile : List Char → (List Char → Bool))
    (drs : List (DRKind × List Char)) (nm : List Char) : Prop :=
  (∃ dr ∈ drs, dr.1 = DRKind.full ∧ nm = lowerStr (NormalizeDomain dr.2)) ∨
  (∃ dr ∈ drs, dr.1 = DRKind.suffix ∧
    (nm = lowerStr (NormalizeDomain dr.2) ∨
      ∃ a, nm = a ++ '.' :: lowerStr (NormalizeDomain dr.2))) ∨
  (∃ dr ∈ drs, dr.1 = DRKind.keyword ∧ ∃ a b, nm = a ++ lowerStr dr.2 ++ b) ∨
  (∃ dr ∈ drs, dr.1 = DRKind.regexp ∧ rxCompile dr.2 nm = true)

/-! ## Part 2: theorems -/

/-! ### Helper lemmas -/

theorem ExecuteT_fst {Req Msg : Type} (rules : List (DNSRule Req Msg)) (req : Req) :
    (ExecuteT rules req).1 = Execute rules req := by
  induction rules with
  | nil => rfl
  | cons r rest ih =>
    simp only [ExecuteT, Execute]
    cases h : r.matchFn req with
    | error e => simp
    | ok b => cases b <;> simp [ih]

theorem ttlFold_nil (st : Nat × Bool) : ttlFold [] st = st := rfl

theorem ttlFold_cons_false (h : RR) (t : List RR) (a : Nat) :
    ttlFold (h :: t) (a, false) = ttlFold t (h.ttl, true) := by
  simp [ttlFold]

theorem ttlFold_found_true (rrs : List RR) (a : Nat) :
    ttlFold rrs (a, true) = (rrs.foldl (fun x rr => Nat.min x rr.ttl) a, true) := by
  induction rrs generalizing a with
  | nil => rfl
  | cons h t ih =>
    simp only [ttlFold, List.foldl_cons] at *
    rcases Nat.lt_or_ge h.ttl a with hlt | hge
    · simp [hlt, Nat.min_eq_right (Nat.le_of_lt hlt), ih]
    · have : ¬ h.ttl < a := Nat.not_lt.mpr hge
      simp [this, Nat.min_eq_left hge, ih]

/-- `extractTTL` computes exactly the plain minimum TTL of the first
non-empty section, with the `found` flag recording whether any section
was non-empty. -/
theorem extractTTL_eq (m : DnsSections) :
    extractTTL m =
      match sectionMinTTL (firstSection m) with
      | none => (0, false)
      | some t => (t, true) := by
  unfold extractTTL firstSection sectionMinTTL
  cases ha : m.answer with
  | cons h t =>
    simp [ttlFold_cons_false, ttlFold_found_true]
  | nil =>
    cases hn : m.ns with
    | cons h t =>
      simp [ttlFold_nil, ttlFold_cons_false, ttlFold_found_true]
    | nil =>
      cases he : m.extra with
      | cons h t =>
        simp [ttlFold_nil, ttlFold_cons_false, ttlFold_found_true]
      | nil =>
        simp [ttlFold_nil]

theorem foldl_min_is_min (t : List Nat) (a : Nat) :
    (t.foldl Nat.min a ≤ a ∧ ∀ x ∈ t, t.foldl Nat.min a ≤ x) ∧
      (t.foldl Nat.min a = a ∨ t.foldl Nat.min a ∈ t) := by
  induction t generalizing a with
  | nil => simp
  | cons h tl ih =>
    have ih' := ih (Nat.min a h)
    constructor
    · refine ⟨Nat.le_trans ih'.1.1 (Nat.min_le_left _ _), ?_⟩
      intro x hx
      rcases List.mem_cons.mp hx with rfl | hx
      · exact Nat.le_trans ih'.1.1 (Nat.min_le_right _ _)
      · exact ih'.1.2 x hx
    · rcases ih'.2 with heq | hmem
      · rw [List.foldl_cons, heq]
        rcases Nat.le_total a h with hle | hle
        · exact Or.inl (Nat.min_eq_left hle)
        · exact Or.inr (by simp [Nat.min_eq_right hle])
      · exact Or.inr (List.mem_cons_of_mem _ hmem)

/-- Invariant of the single-flight protocol: the in-flight set has no
duplicates and the number of running refresh goroutines for a key is 1
when the key is marked in flight and 0 otherwise. -/
theorem reachable_refresh_invariant (s : RefreshState) (h : ReachableR s) :
    s.inflight.Nodup ∧ ∀ k, s.running k = if k ∈ s.inflight then 1 else 0 := by
  induction h with
  | init => simp
  | sched s k _ ih =>
    rcases ih with ⟨hnd, hrun⟩
    by_cases hk : k ∈ s.inflight
    · simpa [stepRefresh, scheduleBegin, hk] using ⟨hnd, hrun⟩
    · refine ⟨?_, ?_⟩
      · simpa [stepRefresh, scheduleBegin, hk] using List.nodup_cons.mpr ⟨hk, hnd⟩
      · intro k'
        by_cases hk' : k' = k
        · subst hk'
          simp [stepRefresh, scheduleBegin, hk, hrun]
        · simp [stepRefresh, scheduleBegin, hk, hk', hrun]
  | done s k b _ hpos ih =>
    rcases ih with ⟨hnd, hrun⟩
    have hkmem : k ∈ s.inflight := by
      by_contra hmem
      rw [hrun k, if_neg hmem] at hpos
      exact absurd hpos (by omega)
    refine ⟨?_, ?_⟩
    · simpa [stepRefresh, refreshFinish] using hnd.erase k
    · intro k'
      by_cases hk' : k' = k
      · subst hk'
        have hne : k' ∉ s.inflight.erase k' := hnd.not_mem_erase
        simp [stepRefresh, refreshFinish, hne, hrun, hkmem]
      · have hmem : k' ∈ s.inflight.erase k ↔ k' ∈ s.inflight :=
          List.mem_erase_of_ne hk'
        simp [stepRefresh, refreshFinish, hk', hrun, hmem]

theorem option_or_assoc {α : Type} (a b c : Option α) :
    (a.or b).or c = a.or (b.or c) := by
  cases a <;> rfl

theorem groupWaitLoop_all_fail {Msg : Type}
    (outcomes : List (Option Msg × Option GoErr))
    (h : ∀ p ∈ outcomes, p.2 = none → p.1 = none) :
    ∀ fe, groupWaitLoop outcomes fe =
      .error ((fe.or (firstSomeErr outcomes)).getD .allResolversFailed) := by
  induction outcomes with
  | nil =>
    intro fe
    cases fe <;> rfl
  | cons p rest ih =>
    intro fe
    have hrest : ∀ q ∈ rest, q.2 = none → q.1 = none := by
      intro q hq
      exact h q (List.mem_cons_of_mem _ hq)
    obtain ⟨m?, e?⟩ := p
    cases e? with
    | none =>
      have hm : m? = none := h (m?, none) (List.mem_cons_self _ _) rfl
      subst hm
      rw [show groupWaitLoop ((none, none) :: rest) fe =
            groupWaitLoop rest (fe.or none) from rfl]
      rw [ih hrest]
      simp [firstSomeErr, option_or_assoc]
    | some e =>
      cases m? with
      | none =>
        rw [show groupWaitLoop ((none, some e) :: rest) fe =
              groupWaitLoop rest (fe.or (some e)) from rfl]
        rw [ih hrest]
        simp [firstSomeErr, option_or_assoc]
      | some m =>
        rw [show groupWaitLoop ((some m, some e) :: rest) fe =
              groupWaitLoop rest (fe.or (some e)) from rfl]
        rw [ih hrest]
        simp [firstSomeErr, option_or_assoc]

theorem egLastOk_all_error {Msg : Type} (l : List (Except GoErr Msg))
    (h : ∀ o ∈ l, ∃ e, o = .error e) : egLastOk l = none := by
  induction l with
  | nil => rfl
  | cons o rest ih =>
    cases o with
    | error e =>
      rw [show egLastOk (.error e :: rest) = egLastOk rest from rfl]
      exact ih fun q hq => h q (List.mem_cons_of_mem _ hq)
    | ok m =>
      rcases h (.ok m) (List.mem_cons_self _ _) with ⟨e, he⟩
      cases he

/-- A successful varint read spans at most `⌈(64 - shift) / 7⌉` bytes:
the number of iterations is limited by the overflow check on `shift`. -/
theorem readVarintAux_span (data : List Byte) :
    ∀ (offset value shift : Nat), shift ≤ 63 →
    ∀ (v : Nat) (o : OffsetAfter data offset),
      readVarintAux data offset value shift = .ok (v, o) →
      o.val - offset ≤ (70 - shift) / 7 := by
  intro offset value shift
  induction offset, value, shift using readVarintAux.induct (d := data) with
  | case1 offset value shift h hb =>
    intro hs v o hok
    rw [readVarintAux] at hok
    simp only [dif_pos h, if_pos hb, Except.ok.injEq, Prod.mk.injEq] at hok
    have : o.val = offset + 1 := by
      rw [← hok.2]
    omega
  | case2 offset value shift h hb hover =>
    intro hs v o hok
    rw [readVarintAux] at hok
    simp only [dif_pos h, if_neg hb, if_pos hover] at hok
    cases hok
  | case3 offset value shift h hb hover e herr ih =>
    intro hs v o hok
    rw [readVarintAux] at hok
    simp only [dif_pos h, if_neg hb, if_neg hover, herr] at hok
    cases hok
  | case4 offset value shift h hb hover v' o' ho' hrec ih =>
    intro hs v o hok
    rw [readVarintAux] at hok
    simp only [dif_pos h, if_neg hb, if_neg hover, hrec, Except.ok.injEq,
      Prod.mk.injEq] at hok
    have hval : o.val = o' := by
      rw [← hok.2]
    have hstep := ih (by omega) v' ⟨o', ho'⟩ hrec
    simp only at hstep
    omega
  | case5 offset value shift h =>
    intro hs v o hok
    rw [readVarintAux] at hok
    simp only [dif_neg h] at hok
    cases hok

/-- When every remaining byte has its continuation bit set, the varint
loop never succeeds: it runs into the end of the slice or into the
64-bit overflow check. -/
theorem readVarintAux_cont_error (data : List Byte) :
    ∀ (offset value shift : Nat),
      (∀ i, offset ≤ i → ∀ (hi : i < data.length), 128 ≤ (data.get ⟨i, hi⟩).val) →
      ∀ (v : Nat) (o : OffsetAfter data offset),
        readVarintAux data offset value shift ≠ .ok (v, o) := by
  intro offset value shift
  induction offset, value, shift using readVarintAux.induct (d := data) with
  | case1 offset value shift h hb =>
    intro hc v o _
    exact absurd (hc offset (Nat.le_refl _) h) (by omega)
  | case2 offset value shift h hb hover =>
    intro hc v o hok
    rw [readVarintAux] at hok
    simp only [dif_pos h, if_neg hb, if_pos hover] at hok
    cases hok
  | case3 offset value shift h hb hover e herr ih =>
    intro hc v o hok
    rw [readVarintAux] at hok
    simp only [dif_pos h, if_neg hb, if_neg hover, herr] at hok
    cases hok
  | case4 offset value shift h hb hover v' o' ho' hrec ih =>
    intro hc v o hok
    have hc' : ∀ i, offset + 1 ≤ i → ∀ (hi : i < data.length),
        128 ≤ (data.get ⟨i, hi⟩).val := by
      intro i hle hi
      exact hc i (by omega) hi
    exact ih hc' v' ⟨o', ho'⟩ hrec
  | case5 offset value shift h =>
    intro hc v o hok
    rw [readVarintAux] at hok
    simp only [dif_neg h] at hok
    cases hok

theorem popNot_id (ops : List Tok) : popNot ops = ([], ops) := by
  cases ops with
  | nil => rfl
  | cons op rest =>
    have h : ¬ (op ≠ Tok.lparen ∧ prec Tok.tNot < prec op) := by
      cases op <;> simp [prec]
    simp only [popNot, if_neg h]

theorem popBin_flush (p : Nat) (pend : List Tok)
    (hpend : ∀ t ∈ pend, t ≠ Tok.lparen ∧ p ≤ prec t) :
    ∀ ops, (ops = [] ∨ ∃ h t, ops = h :: t ∧ (h = Tok.lparen ∨ prec h < p)) →
    popBin p (pend ++ ops) = (pend, ops) := by
  induction pend with
  | nil =>
    intro ops hops
    rcases hops with rfl | ⟨h, t, rfl, hh⟩
    · rfl
    · rcases hh with rfl | hlt
      · by_cases hp0 : p ≤ prec Tok.lparen
        · simp [popBin, hp0]
        · simp [popBin, hp0]
      · simp [popBin, Nat.not_le.mpr hlt]
  | cons t pend' ih =>
    intro ops hops
    have ht := hpend t (List.mem_cons_self _ _)
    have hrest : ∀ x ∈ pend', x ≠ Tok.lparen ∧ p ≤ prec x :=
      fun x hx => hpend x (List.mem_cons_of_mem _ hx)
    simp [popBin, ht.1, ht.2, ih hrest ops hops]

theorem popParen_flush (pend : List Tok) (hpend : ∀ t ∈ pend, t ≠ Tok.lparen) :
    ∀ ops, popParen (pend ++ Tok.lparen :: ops) = some (pend, ops) := by
  induction pend with
  | nil =>
    intro ops
    simp [popParen]
  | cons t pend' ih =>
    intro ops
    have ht := hpend t (List.mem_cons_self _ _)
    simp [popParen, ht, ih (fun x hx => hpend x (List.mem_cons_of_mem _ hx)) ops]

theorem syFlush_ops (l : List Tok) (h : ∀ t ∈ l, t ≠ Tok.lparen ∧ t ≠ Tok.rparen) :
    syFlush l = .ok l := by
  induction l with
  | nil => rfl
  | cons t rest ih =>
    have ht := h t (List.mem_cons_self _ _)
    have : ¬ (t = Tok.lparen ∨ t = Tok.rparen) := by
      simp [ht.1, ht.2]
    simp [syFlush, this, ih (fun x hx => h x (List.mem_cons_of_mem _ hx))]

theorem frontPend_append (e : SExpr) : ∀ lvl,
    (frontPend e lvl).1 ++ (frontPend e lvl).2 = post e := by
  induction e with
  | ident s => intro lvl; rfl
  | notE e ih =>
    intro lvl
    simp only [frontPend, post, ← ih 3, ← List.append_assoc]
  | andE l r ihl ihr =>
    intro lvl
    by_cases h : 2 < lvl
    · simp [frontPend, h]
    · simp only [frontPend, if_neg h, post, ← ihl 2, ← ihr 3]
      simp [List.append_assoc]
  | orE l r ihl ihr =>
    intro lvl
    by_cases h : 1 < lvl
    · simp [frontPend, h]
    · simp only [frontPend, if_neg h, post, ← ihl 1, ← ihr 2]
      simp [List.append_assoc]

theorem frontPend_pend_ops (e : SExpr) : ∀ lvl, lvl ≤ 3 →
    ∀ t ∈ (frontPend e lvl).2,
      (t = Tok.tNot ∨ t = Tok.tAnd ∨ t = Tok.tOr) ∧ lvl ≤ prec t := by
  induction e with
  | ident s => intro lvl _ t ht; simp [frontPend] at ht
  | notE e ih =>
    intro lvl hlvl t ht
    simp only [frontPend] at ht
    rcases List.mem_append.mp ht with h1 | h2
    · have := ih 3 (Nat.le_refl _) t h1
      exact ⟨this.1, Nat.le_trans hlvl this.2⟩
    · have : t = Tok.tNot := by simpa using h2
      subst this
      exact ⟨Or.inl rfl, by simpa [prec] using hlvl⟩
  | andE l r _ ihr =>
    intro lvl hlvl t ht
    by_cases h : 2 < lvl
    · simp [frontPend, h] at ht
    · simp only [frontPend, if_neg h] at ht
      rcases List.mem_append.mp ht with h1 | h2
      · have := ihr 3 (Nat.le_refl _) t h1
        exact ⟨this.1, Nat.le_trans hlvl this.2⟩
      · have : t = Tok.tAnd := by simpa using h2
        subst this
        exact ⟨Or.inr (Or.inl rfl), by simp [prec]; omega⟩
  | orE l r _ ihr =>
    intro lvl hlvl t ht
    by_cases h : 1 < lvl
    · simp [frontPend, h] at ht
    · simp only [frontPend, if_neg h] at ht
      rcases List.mem_append.mp ht with h1 | h2
      · have := ihr 2 (by omega) t h1
        have h2 := this.2
        exact ⟨this.1, by omega⟩
      · have : t = Tok.tOr := by simpa using h2
        subst this
        exact ⟨Or.inr (Or.inr rfl), by simp [prec]; omega⟩

/-- The core invariant of the shunting-yard run: consuming the printed
form of `e` at level `lvl`, over a stack whose top is a barrier for
`lvl`, emits `(frontPend e lvl).1` and leaves `(frontPend e lvl).2` on
top of the stack. -/
theorem syLoop_pr (e : SExpr) : ∀ (lvl : Nat), 1 ≤ lvl → lvl ≤ 3 →
    ∀ (rest output ops : List Tok), barrier ops lvl →
      syLoop (pr e lvl ++ rest) output ops =
        syLoop rest (output ++ (frontPend e lvl).1) ((frontPend e lvl).2 ++ ops) := by
  induction e with
  | ident s =>
    intro lvl _ _ rest output ops _
    simp [pr, frontPend, syLoop]
  | notE e ih =>
    intro lvl _ _ rest output ops _
    have step : syLoop (pr (.notE e) lvl ++ rest) output ops =
        syLoop (pr e 3 ++ rest) output (Tok.tNot :: ops) := by
      simp [pr, syLoop, popNot_id]
    rw [step, ih 3 (by omega) (by omega) rest output (Tok.tNot :: ops)
      (Or.inr (Or.inr ⟨rfl, rfl⟩))]
    simp [frontPend, List.append_assoc]
  | andE l r ihl ihr =>
    intro lvl h1 h3 rest output ops hbar
    have hpendl := frontPend_pend_ops l 2 (by omega)
    have hpendl' : ∀ t ∈ (frontPend l 2).2, t ≠ Tok.lparen ∧ 2 ≤ prec t := by
      intro t ht
      have := hpendl t ht
      refine ⟨?_, this.2⟩
      rcases this.1 with rfl | rfl | rfl <;> simp
    by_cases hp : 2 < lvl
    · -- parenthesized
      have e1 : pr (.andE l r) lvl ++ rest =
          Tok.lparen :: (pr l 2 ++ (Tok.tAnd :: (pr r 3 ++ Tok.rparen :: rest))) := by
        simp [pr, hp, List.append_assoc]
      rw [e1]
      rw [show syLoop (Tok.lparen :: (pr l 2 ++ (Tok.tAnd :: (pr r 3 ++ Tok.rparen :: rest))))
            output ops =
          syLoop (pr l 2 ++ (Tok.tAnd :: (pr r 3 ++ Tok.rparen :: rest))) output
            (Tok.lparen :: ops) from rfl]
      rw [ihl 2 (by omega) (by omega) _ output (Tok.lparen :: ops) (Or.inl rfl)]
      rw [show syLoop (Tok.tAnd :: (pr r 3 ++ (Tok.rparen :: rest)))
            (output ++ (frontPend l 2).1) ((frontPend l 2).2 ++ Tok.lparen :: ops) =
          syLoop (pr r 3 ++ (Tok.rparen :: rest))
            ((output ++ (frontPend l 2).1) ++ (popBin 2 ((frontPend l 2).2 ++ Tok.lparen :: ops)).1)
            (Tok.tAnd :: (popBin 2 ((frontPend l 2).2 ++ Tok.lparen :: ops)).2) from rfl]
      rw [popBin_flush 2 (frontPend l 2).2 hpendl' (Tok.lparen :: ops)
        (Or.inr ⟨Tok.lparen, ops, rfl, Or.inl rfl⟩)]
      rw [ihr 3 (by omega) (by omega) _ _ (Tok.tAnd :: Tok.lparen :: ops)
        (Or.inr (Or.inl (by simp [prec])))]
      have hpendr : ∀ t ∈ (frontPend r 3).2 ++ [Tok.tAnd], t ≠ Tok.lparen := by
        intro t ht
        rcases List.mem_append.mp ht with h1' | h2'
        · have := frontPend_pend_ops r 3 (Nat.le_refl _) t h1'
          rcases this.1 with rfl | rfl | rfl <;> simp
        · have : t = Tok.tAnd := by simpa using h2'
          subst this; simp
      have e2 : (frontPend r 3).2 ++ Tok.tAnd :: Tok.lparen :: ops =
          ((frontPend r 3).2 ++ [Tok.tAnd]) ++ Tok.lparen :: ops := by
        simp [List.append_assoc]
      rw [show syLoop (Tok.rparen :: rest)
            ((output ++ (frontPend l 2).1 ++ (frontPend l 2).2) ++ (frontPend r 3).1)
            ((frontPend r 3).2 ++ Tok.tAnd :: Tok.lparen :: ops) =
          (match popParen ((frontPend r 3).2 ++ Tok.tAnd :: Tok.lparen :: ops) with
            | none => Except.error GoErr.mismatchedParens
            | some (popped, rest') =>
              syLoop rest
                (((output ++ (frontPend l 2).1 ++ (frontPend l 2).2) ++ (frontPend r 3).1)
                  ++ popped) rest') from rfl]
      rw [e2, popParen_flush ((frontPend r 3).2 ++ [Tok.tAnd]) hpendr ops]
      have e3 : (frontPend (SExpr.andE l r) lvl).1 = post (SExpr.andE l r) ∧
          (frontPend (SExpr.andE l r) lvl).2 = [] := by
        simp [frontPend, hp]
      rw [e3.1, e3.2]
      simp only [post, List.nil_append]
      rw [← frontPend_append l 2, ← frontPend_append r 3]
      simp [List.append_assoc]
    · -- unparenthesized: lvl ≤ 2
      have e1 : pr (.andE l r) lvl ++ rest =
          pr l 2 ++ (Tok.tAnd :: (pr r 3 ++ rest)) := by
        simp [pr, hp, List.append_assoc]
      rw [e1]
      rw [ihl 2 (by omega) (by omega) _ output ops ?hbar2]
      case hbar2 =>
        rcases ops with _ | ⟨t, ts⟩
        · trivial
        · rcases hbar with rfl | hlt | ⟨rfl, h3'⟩
          · exact Or.inl rfl
          · exact Or.inr (Or.inl (by omega))
          · omega
      rw [show syLoop (Tok.tAnd :: (pr r 3 ++ rest))
            (output ++ (frontPend l 2).1) ((frontPend l 2).2 ++ ops) =
          syLoop (pr r 3 ++ rest)
            ((output ++ (frontPend l 2).1) ++ (popBin 2 ((frontPend l 2).2 ++ ops)).1)
            (Tok.tAnd :: (popBin 2 ((frontPend l 2).2 ++ ops)).2) from rfl]
      rw [popBin_flush 2 (frontPend l 2).2 hpendl' ops ?hops2]
      case hops2 =>
        rcases ops with _ | ⟨t, ts⟩
        · exact Or.inl rfl
        · rcases hbar with rfl | hlt | ⟨rfl, h3'⟩
          · exact Or.inr ⟨_, _, rfl, Or.inl rfl⟩
          · exact Or.inr ⟨_, _, rfl, Or.inr (by omega)⟩
          · omega
      rw [ihr 3 (by omega) (by omega) rest _ (Tok.tAnd :: ops)
        (Or.inr (Or.inl (by simp [prec])))]
      simp [frontPend, hp, List.append_assoc]
  | orE l r ihl ihr =>
    intro lvl h1 h3 rest output ops hbar
    have hpendl := frontPend_pend_ops l 1 (by omega)
    have hpendl' : ∀ t ∈ (frontPend l 1).2, t ≠ Tok.lparen ∧ 1 ≤ prec t := by
      intro t ht
      have := hpendl t ht
      refine ⟨?_, this.2⟩
      rcases this.1 with rfl | rfl | rfl <;> simp
    by_cases hp : 1 < lvl
    · -- parenthesized
      have e1 : pr (.orE l r) lvl ++ rest =
          Tok.lparen :: (pr l 1 ++ (Tok.tOr :: (pr r 2 ++ Tok.rparen :: rest))) := by
        simp [pr, hp, List.append_assoc]
      rw [e1]
      rw [show syLoop (Tok.lparen :: (pr l 1 ++ (Tok.tOr :: (pr r 2 ++ Tok.rparen :: rest))))
            output ops =
          syLoop (pr l 1 ++ (Tok.tOr :: (pr r 2 ++ Tok.rparen :: rest))) output
            (Tok.lparen :: ops) from rfl]
      rw [ihl 1 (by omega) (by omega) _ output (Tok.lparen :: ops) (Or.inl rfl)]
      rw [show syLoop (Tok.tOr :: (pr r 2 ++ (Tok.rparen :: rest)))
            (output ++ (frontPend l 1).1) ((frontPend l 1).2 ++ Tok.lparen :: ops) =
          syLoop (pr r 2 ++ (Tok.rparen :: rest))
            ((output ++ (frontPend l 1).1) ++ (popBin 1 ((frontPend l 1).2 ++ Tok.lparen :: ops)).1)
            (Tok.tOr :: (popBin 1 ((frontPend l 1).2 ++ Tok.lparen :: ops)).2) from rfl]
      rw [popBin_flush 1 (frontPend l 1).2 hpendl' (Tok.lparen :: ops)
        (Or.inr ⟨Tok.lparen, ops, rfl, Or.inl rfl⟩)]
      rw [ihr 2 (by omega) (by omega) _ _ (Tok.tOr :: Tok.lparen :: ops)
        (Or.inr (Or.inl (by simp [prec])))]
      have hpendr : ∀ t ∈ (frontPend r 2).2 ++ [Tok.tOr], t ≠ Tok.lparen := by
        intro t ht
        rcases List.mem_append.mp ht with h1' | h2'
        · have := frontPend_pend_ops r 2 (by omega) t h1'
          rcases this.1 with rfl | rfl | rfl <;> simp
        · have : t = Tok.tOr := by simpa using h2'
          subst this; simp
      have e2 : (frontPend r 2).2 ++ Tok.tOr :: Tok.lparen :: ops =
          ((frontPend r 2).2 ++ [Tok.tOr]) ++ Tok.lparen :: ops := by
        simp [List.append_assoc]
      rw [show syLoop (Tok.rparen :: rest)
            ((output ++ (frontPend l 1).1 ++ (frontPend l 1).2) ++ (frontPend r 2).1)
            ((frontPend r 2).2 ++ Tok.tOr :: Tok.lparen :: ops) =
          (match popParen ((frontPend r 2).2 ++ Tok.tOr :: Tok.lparen :: ops) with
            | none => Except.error GoErr.mismatchedParens
            | some (popped, rest') =>
              syLoop rest
                (((output ++ (frontPend l 1).1 ++ (frontPend l 1).2) ++ (frontPend r 2).1)
                  ++ popped) rest') from rfl]
      rw [e2, popParen_flush ((frontPend r 2).2 ++ [Tok.tOr]) hpendr ops]
      have e3 : (frontPend (SExpr.orE l r) lvl).1 = post (SExpr.orE l r) ∧
          (frontPend (SExpr.orE l r) lvl).2 = [] := by
        simp [frontPend, hp]
      rw [e3.1, e3.2]
      simp only [post, List.nil_append]
      rw [← frontPend_append l 1, ← frontPend_append r 2]
      simp [List.append_assoc]
    · -- unparenthesized: lvl = 1
      have e1 : pr (.orE l r) lvl ++ rest =
          pr l 1 ++ (Tok.tOr :: (pr r 2 ++ rest)) := by
        simp [pr, hp, List.append_assoc]
      rw [e1]
      rw [ihl 1 (by omega) (by omega) _ output ops ?hbar1]
      case hbar1 =>
        rcases ops with _ | ⟨t, ts⟩
        · trivial
        · rcases hbar with rfl | hlt | ⟨rfl, h3'⟩
          · exact Or.inl rfl
          · exact Or.inr (Or.inl (by omega))
          · omega
      rw [show syLoop (Tok.tOr :: (pr r 2 ++ rest))
            (output ++ (frontPend l 1).1) ((frontPend l 1).2 ++ ops) =
          syLoop (pr r 2 ++ rest)
            ((output ++ (frontPend l 1).1) ++ (popBin 1 ((frontPend l 1).2 ++ ops)).1)
            (Tok.tOr :: (popBin 1 ((frontPend l 1).2 ++ ops)).2) from rfl]
      rw [popBin_flush 1 (frontPend l 1).2 hpendl' ops ?hops1]
      case hops1 =>
        rcases ops with _ | ⟨t, ts⟩
        · exact Or.inl rfl
        · rcases hbar with rfl | hlt | ⟨rfl, h3'⟩
          · exact Or.inr ⟨_, _, rfl, Or.inl rfl⟩
          · exact Or.inr ⟨_, _, rfl, Or.inr (by omega)⟩
          · omega
      rw [ihr 2 (by omega) (by omega) rest _ (Tok.tOr :: ops)
        (Or.inr (Or.inl (by simp [prec])))]
      simp [frontPend, hp, List.append_assoc]

/-- `shuntingYard` on the printed form of an expression produces its
postfix form. -/
theorem shuntingYard_pr (e : SExpr) : shuntingYard (pr e 1) = .ok (post e) := by
  unfold shuntingYard
  have h := syLoop_pr e 1 (Nat.le_refl _) (by omega) [] [] [] trivial
  rw [show pr e 1 ++ [] = pr e 1 by simp] at h
  rw [h]
  have hops : ∀ t ∈ (frontPend e 1).2, t ≠ Tok.lparen ∧ t ≠ Tok.rparen := by
    intro t ht
    have := frontPend_pend_ops e 1 (by omega) t ht
    rcases this.1 with rfl | rfl | rfl <;> simp
  rw [show syLoop [] ([] ++ (frontPend e 1).1) ((frontPend e 1).2 ++ []) =
      (match syFlush ((frontPend e 1).2 ++ []) with
        | .error e' => Except.error e'
        | .ok flushed => .ok (([] ++ (frontPend e 1).1) ++ flushed)) from rfl]
  rw [show (frontPend e 1).2 ++ [] = (frontPend e 1).2 by simp]
  rw [syFlush_ops _ hops]
  simp [frontPend_append e 1]

/-- Folding the postfix form of `e` pushes exactly the tree of `e`. -/
theorem parseRPN_post {α : Type} (reg : Nat → Option α) (mf : Nat → α) (e : SExpr)
    (hreg : ∀ s ∈ ids e, reg s = some (mf s)) :
    ∀ rest stack, parseRPNLoop reg (post e ++ rest) stack =
      parseRPNLoop reg rest (mapTree mf e :: stack) := by
  induction e with
  | ident s =>
    intro rest stack
    have h := hreg s (by simp [ids])
    simp [post, parseRPNLoop, h, mapTree]
  | notE e ih =>
    intro rest stack
    rw [show post (.notE e) ++ rest = post e ++ (Tok.tNot :: rest) by simp [post]]
    rw [ih hreg _ stack]
    rfl
  | andE l r ihl ihr =>
    intro rest stack
    rw [show post (.andE l r) ++ rest = post l ++ (post r ++ (Tok.tAnd :: rest)) by
      simp [post]]
    rw [ihl (fun s hs => hreg s (by simp [ids, hs])) _ stack]
    rw [ihr (fun s hs => hreg s (by simp [ids, hs])) _ _]
    rfl
  | orE l r ihl ihr =>
    intro rest stack
    rw [show post (.orE l r) ++ rest = post l ++ (post r ++ (Tok.tOr :: rest)) by
      simp [post]]
    rw [ihl (fun s hs => hreg s (by simp [ids, hs])) _ stack]
    rw [ihr (fun s hs => hreg s (by simp [ids, hs])) _ _]
    rfl

/-- Evaluating the compiled tree of `e` computes the boolean function of
`e` and invokes exactly the matchers a short-circuiting left-to-right
evaluation visits. -/
theorem evalT_mapTree {α : Type} (g : α → Except GoErr Bool) (mf : Nat → α)
    (f : Nat → Bool) (e : SExpr) (hg : ∀ s ∈ ids e, g (mf s) = .ok (f s)) :
    evalT g (mapTree mf e) = (.ok (bsem f e), (strace f e).map mf) := by
  induction e with
  | ident s =>
    simp [mapTree, evalT, bsem, strace, hg s (by simp [ids])]
  | notE e ih =>
    simp [mapTree, evalT, bsem, strace, ih (fun s hs => hg s (by simp [ids, hs]))]
  | andE l r ihl ihr =>
    have hl := ihl (fun s hs => hg s (by simp [ids, hs]))
    have hr := ihr (fun s hs => hg s (by simp [ids, hs]))
    by_cases hb : bsem f l
    · simp [mapTree, evalT, hl, hr, bsem, strace, hb]
    · simp [mapTree, evalT, hl, bsem, strace, hb]
  | orE l r ihl ihr =>
    have hl := ihl (fun s hs => hg s (by simp [ids, hs]))
    have hr := ihr (fun s hs => hg s (by simp [ids, hs]))
    by_cases hb : bsem f l
    · simp [mapTree, evalT, hl, bsem, strace, hb]
    · simp [mapTree, evalT, hl, hr, bsem, strace, hb]

theorem evalT_fst_evalNode {α : Type} (g : α → Except GoErr Bool) :
    ∀ t : ExprNode α, (evalT g t).1 = evalNode g t := by
  intro t
  induction t with
  | leaf m => rfl
  | notN c ih =>
    simp only [evalT, evalNode, ← ih]
    cases h : (evalT g c).1 <;> simp [h]
  | andN l r ihl ihr =>
    simp only [evalT, evalNode, ← ihl, ← ihr]
    cases h : (evalT g l).1 with
    | error e => simp [h]
    | ok b => cases b <;> simp [h]
  | orN l r ihl ihr =>
    simp only [evalT, evalNode, ← ihl, ← ihr]
    cases h : (evalT g l).1 with
    | error e => simp [h]
    | ok b => cases b <;> simp [h]

/-! #### Label and split lemmas -/

theorem splitOnDot_ne_nil (s : List Char) : splitOnDot s ≠ [] := by
  cases s with
  | nil => simp [splitOnDot]
  | cons c rest =>
    by_cases h : c = '.'
    · simp [splitOnDot, h]
    · simp only [splitOnDot, if_neg h]
      cases hs : splitOnDot rest <;> simp

theorem splitOnDot_append (a b : List Char) :
    splitOnDot (a ++ '.' :: b) = splitOnDot a ++ splitOnDot b := by
  induction a with
  | nil => simp [splitOnDot]
  | cons c rest ih =>
    by_cases h : c = '.'
    · simp [splitOnDot, h, ih]
    · cases hs : splitOnDot rest with
      | nil => exact absurd hs (splitOnDot_ne_nil rest)
      | cons l ls => simp [splitOnDot, h, ih, hs]

theorem joinDots_cons_cons (c : Char) (l : List Char) (ls : List (List Char)) :
    joinDots ((c :: l) :: ls) = c :: joinDots (l :: ls) := by
  cases ls <;> simp [joinDots]

theorem joinDots_splitOnDot (s : List Char) : joinDots (splitOnDot s) = s := by
  induction s with
  | nil => rfl
  | cons c rest ih =>
    by_cases h : c = '.'
    · subst h
      rw [show splitOnDot ('.' :: rest) = [] :: splitOnDot rest from by simp [splitOnDot]]
      cases hs : splitOnDot rest with
      | nil => exact absurd hs (splitOnDot_ne_nil rest)
      | cons l ls =>
        rw [show joinDots ([] :: l :: ls) = [] ++ '.' :: joinDots (l :: ls) from rfl]
        rw [← hs, ih]
        rfl
    · rw [show splitOnDot (c :: rest) =
          (match splitOnDot rest with
            | [] => [[c]]
            | l :: ls => (c :: l) :: ls) from by simp [splitOnDot, h]]
      cases hs : splitOnDot rest with
      | nil => exact absurd hs (splitOnDot_ne_nil rest)
      | cons l ls =>
        rw [show joinDots (match l :: ls with
            | [] => [[c]]
            | l :: ls => (c :: l) :: ls) = joinDots ((c :: l) :: ls) from rfl]
        rw [joinDots_cons_cons, ← hs, ih]

theorem splitOnDot_inj (a b : List Char) (h : splitOnDot a = splitOnDot b) : a = b := by
  rw [← joinDots_splitOnDot a, h, joinDots_splitOnDot]

theorem joinDots_append (A B : List (List Char)) (hA : A ≠ []) (hB : B ≠ []) :
    joinDots (A ++ B) = joinDots A ++ '.' :: joinDots B := by
  induction A with
  | nil => exact absurd rfl hA
  | cons l ls ih =>
    cases ls with
    | nil =>
      cases B with
      | nil => exact absurd rfl hB
      | cons b bs => simp [joinDots]
    | cons x xs =>
      rw [show (l :: x :: xs) ++ B = l :: x :: (xs ++ B) from rfl]
      rw [show joinDots (l :: x :: (xs ++ B)) = l ++ '.' :: joinDots (x :: (xs ++ B)) from rfl]
      rw [← List.cons_append, ih (by simp)]
      rw [show joinDots (l :: x :: xs) = l ++ '.' :: joinDots (x :: xs) from rfl]
      simp

/-- Label-aligned suffix matching coincides with the string form: the
labels of `p` are a suffix of the labels of `d` iff `d` equals `p` or
ends with `'.'` followed by `p`. -/
theorem labels_suffix_iff (p d : List Char) :
    (splitOnDot p <:+ splitOnDot d) ↔ (d = p ∨ ∃ a, d = a ++ '.' :: p) := by
  constructor
  · rintro ⟨L, hL⟩
    cases L with
    | nil =>
      left
      exact splitOnDot_inj d p (by simpa using hL.symm)
    | cons x xs =>
      right
      have hd : d = joinDots ((x :: xs) ++ splitOnDot p) := by
        rw [hL, joinDots_splitOnDot]
      rw [joinDots_append (x :: xs) (splitOnDot p) (by simp) (splitOnDot_ne_nil p),
        joinDots_splitOnDot] at hd
      exact ⟨joinDots (x :: xs), hd⟩
  · rintro (rfl | ⟨a, rfl⟩)
    · exact List.suffix_rfl
    · rw [splitOnDot_append]
      exact ⟨splitOnDot a, rfl⟩

/-! #### Label trie lemmas -/

theorem sFind_sPut_same (cs : List (List Char × STrie)) (k : List Char) (t : STrie) :
    sFind (sPut cs k t) k = some t := by
  induction cs with
  | nil => simp [sPut, sFind]
  | cons p rest ih =>
    by_cases h : p.1 = k
    · simp [sPut, sFind, h]
    · simp [sPut, sFind, h, ih]

theorem sFind_sPut_ne (cs : List (List Char × STrie)) (k key : List Char) (t : STrie)
    (h : k ≠ key) : sFind (sPut cs key t) k = sFind cs k := by
  have h' : ¬key = k := fun hh => h hh.symm
  induction cs with
  | nil => simp [sPut, sFind, h']
  | cons p rest ih =>
    obtain ⟨a, v⟩ := p
    by_cases hp : a = key
    · subst hp
      simp [sPut, sFind, h']
    · by_cases hk : a = k
      · subst hk
        simp [sPut, sFind, h, hp]
      · simp [sPut, sFind, hp, hk, ih]

theorem matchExactRev_empty (xs : List (List Char)) :
    matchExactRev (.node [] false) xs = false := by
  cases xs <;> simp [matchExactRev, sFind]

theorem matchExactRev_addRev (ls : List (List Char)) : ∀ (t : STrie) (xs : List (List Char)),
    matchExactRev (addRev t ls) xs = (decide (xs = ls) || matchExactRev t xs) := by
  induction ls with
  | nil =>
    intro t xs
    obtain ⟨cs, term⟩ := t
    cases xs with
    | nil => simp [addRev, matchExactRev]
    | cons l rest => simp [addRev, matchExactRev]
  | cons lbl ls' ih =>
    intro t xs
    obtain ⟨cs, term⟩ := t
    cases xs with
    | nil => simp [addRev, matchExactRev]
    | cons x rest =>
      by_cases hx : x = lbl
      · subst hx
        cases hf : sFind cs x with
        | some c =>
          simp [addRev, matchExactRev, sFind_sPut_same, hf, ih]
        | none =>
          simp [addRev, matchExactRev, sFind_sPut_same, hf, ih,
            matchExactRev_empty]
      · simp [addRev, matchExactRev, sFind_sPut_ne cs x lbl _ hx, hx]

theorem matchRev_cons_none (cs : List (List Char × STrie)) (term : Bool) (l : List Char)
    (rest : List (List Char)) (h : sFind cs l = none) :
    matchRev (.node cs term) (l :: rest) = false := by
  simp [matchRev, h]

theorem matchRev_cons_some (cs : List (List Char × STrie)) (term : Bool) (l : List Char)
    (rest : List (List Char)) (ccs : List (List Char × STrie)) (cterm : Bool)
    (h : sFind cs l = some (.node ccs cterm)) :
    matchRev (.node cs term) (l :: rest) =
      (if cterm then true else matchRev (.node ccs cterm) rest) := by
  simp [matchRev, h]

theorem matchRev_iff (xs : List (List Char)) : ∀ (t : STrie),
    matchRev t xs = true ↔
      ∃ ys, ys <+: xs ∧ matchExactRev t ys = true ∧ (ys = [] → xs = []) := by
  induction xs with
  | nil =>
    intro t
    obtain ⟨cs, term⟩ := t
    constructor
    · intro h
      exact ⟨[], List.nil_prefix, by simpa [matchExactRev] using h, fun _ => rfl⟩
    · rintro ⟨ys, hpre, hex, _⟩
      have : ys = [] := List.prefix_nil.mp hpre
      subst this
      simpa [matchRev, matchExactRev] using hex
  | cons l rest ih =>
    intro t
    obtain ⟨cs, term⟩ := t
    cases hf : sFind cs l with
    | none =>
      rw [matchRev_cons_none cs term l rest hf]
      constructor
      · intro h
        cases h
      · rintro ⟨ys, hpre, hex, hcond⟩
        cases ys with
        | nil => exact absurd (hcond rfl) (by simp)
        | cons y ys' =>
          obtain ⟨rfl, hpre'⟩ := List.cons_prefix_cons.mp hpre
          simp [matchExactRev, hf] at hex
    | some child =>
      obtain ⟨ccs, cterm⟩ := child
      rw [matchRev_cons_some cs term l rest ccs cterm hf]
      by_cases hct : cterm
      · rw [if_pos hct]
        constructor
        · intro _
          exact ⟨[l], by simp, by simp [matchExactRev, hf, hct], by simp⟩
        · intro _
          rfl
      · rw [if_neg hct]
        rw [ih (.node ccs cterm)]
        constructor
        · rintro ⟨ys', hpre, hex, _⟩
          refine ⟨l :: ys', List.cons_prefix_cons.mpr ⟨rfl, hpre⟩, ?_, by simp⟩
          simpa [matchExactRev, hf] using hex
        · rintro ⟨ys, hpre, hex, hcond⟩
          cases ys with
          | nil => exact absurd (hcond rfl) (by simp)
          | cons y ys' =>
            obtain ⟨rfl, hpre'⟩ := List.cons_prefix_cons.mp hpre
            have hex' : matchExactRev (.node ccs cterm) ys' = true := by
              simpa [matchExactRev, hf] using hex
            refine ⟨ys', hpre', hex', ?_⟩
            intro h0
            subst h0
            simp [matchExactRev, hct] at hex'

theorem matchExactRev_foldAdd (P : List (List Char)) : ∀ (t : STrie) (xs : List (List Char)),
    matchExactRev (P.foldl STrie.add t) xs = true ↔
      (∃ p ∈ P, p ≠ [] ∧ xs = (splitOnDot p).reverse) ∨ matchExactRev t xs = true := by
  induction P with
  | nil => simp
  | cons p P' ih =>
    intro t xs
    rw [List.foldl_cons, ih]
    by_cases hp : p = []
    · subst hp
      simp only [STrie.add, if_pos rfl]
      constructor
      · rintro (h | h)
        · exact Or.inl (by
            rcases h with ⟨q, hq, hqne, hxs⟩
            exact ⟨q, List.mem_cons_of_mem _ hq, hqne, hxs⟩)
        · exact Or.inr h
      · rintro (⟨q, hq, hqne, hxs⟩ | h)
        · rcases List.mem_cons.mp hq with rfl | hq'
          · exact absurd rfl hqne
          · exact Or.inl ⟨q, hq', hqne, hxs⟩
        · exact Or.inr h
    · simp only [STrie.add, if_neg hp]
      rw [show (matchExactRev (addRev t (splitOnDot p).reverse) xs = true) ↔
          ((decide (xs = (splitOnDot p).reverse) || matchExactRev t xs) = true) from
        by rw [matchExactRev_addRev]]
      simp only [Bool.or_eq_true, decide_eq_true_eq]
      constructor
      · rintro (h | (hxs | h))
        · exact Or.inl (by
            rcases h with ⟨q, hq, hqne, hxs⟩
            exact ⟨q, List.mem_cons_of_mem _ hq, hqne, hxs⟩)
        · exact Or.inl ⟨p, List.mem_cons_self _ _, hp, hxs⟩
        · exact Or.inr h
      · rintro (⟨q, hq, hqne, hxs⟩ | h)
        · rcases List.mem_cons.mp hq with rfl | hq'
          · exact Or.inr (Or.inl hxs)
          · exact Or.inl ⟨q, hq', hqne, hxs⟩
        · exact Or.inr (Or.inr h)

/-- The suffix trie built from patterns `P` matches `d` iff some
non-empty pattern is a label-aligned suffix of `d`. -/
theorem matchSuffix_foldAdd (P : List (List Char)) (d : List Char) :
    STrie.matchSuffix (P.foldl STrie.add (.node [] false)) d = true ↔
      ∃ p ∈ P, p ≠ [] ∧ (d = p ∨ ∃ a, d = a ++ '.' :: p) := by
  unfold STrie.matchSuffix
  by_cases hd : d = []
  · subst hd
    simp only [if_pos rfl]
    constructor
    · intro h
      cases h
    · rintro ⟨p, _, hpne, (h | ⟨a, ha⟩)⟩
      · exact absurd h.symm hpne
      · simp at ha
  · rw [if_neg hd]
    rw [matchRev_iff]
    constructor
    · rintro ⟨ys, hpre, hex, _⟩
      rcases (matchExactRev_foldAdd P _ ys).mp hex with ⟨p, hp, hpne, rfl⟩ | hfalse
      · refine ⟨p, hp, hpne, ?_⟩
        rw [← labels_suffix_iff]
        have : splitOnDot p <:+ (splitOnDot d).reverse.reverse := by
          rw [← List.reverse_prefix]
          simpa using hpre
        simpa using this
      · rw [matchExactRev_empty] at hfalse
        cases hfalse
    · rintro ⟨p, hp, hpne, hsuf⟩
      have hlab : splitOnDot p <:+ splitOnDot d := (labels_suffix_iff p d).mpr hsuf
      refine ⟨(splitOnDot p).reverse, ?_, ?_, ?_⟩
      · rw [← List.reverse_suffix]
        simpa using hlab
      · exact (matchExactRev_foldAdd P _ _).mpr (Or.inl ⟨p, hp, hpne, rfl⟩)
      · intro h0
        exact absurd (by simpa using h0) (splitOnDot_ne_nil p)

/-- The exact trie built from patterns `P` matches `d` iff `d` is a
non-empty member of `P`. -/
theorem matchExact_foldAdd (P : List (List Char)) (d : List Char) :
    STrie.matchExact (P.foldl STrie.add (.node [] false)) d = true ↔
      (d ≠ [] ∧ d ∈ P) := by
  unfold STrie.matchExact
  by_cases hd : d = []
  · subst hd
    simp
  · rw [if_neg hd]
    rw [matchExactRev_foldAdd]
    constructor
    · rintro (⟨p, hp, hpne, heq⟩ | hfalse)
      · have : splitOnDot d = splitOnDot p := by
          have := congrArg List.reverse heq
          simpa using this
        have hdp : d = p := splitOnDot_inj d p this
        subst hdp
        exact ⟨hd, hp⟩
      · rw [matchExactRev_empty] at hfalse
        cases hfalse
    · rintro ⟨hne, hmem⟩
      exact Or.inl ⟨d, hmem, hne, rfl⟩

/-! #### Aho–Corasick trie lemmas -/

theorem cFind_cPut_same (cs : List (Char × CTrie)) (k : Char) (t : CTrie) :
    cFind (cPut cs k t) k = some t := by
  induction cs with
  | nil => simp [cPut, cFind]
  | cons p rest ih =>
    obtain ⟨a, v⟩ := p
    by_cases h : a = k
    · simp [cPut, cFind, h]
    · simp [cPut, cFind, h, ih]

theorem cFind_cPut_ne (cs : List (Char × CTrie)) (k key : Char) (t : CTrie)
    (h : k ≠ key) : cFind (cPut cs key t) k = cFind cs k := by
  have h' : ¬key = k := fun hh => h hh.symm
  induction cs with
  | nil => simp [cPut, cFind, h']
  | cons p rest ih =>
    obtain ⟨a, v⟩ := p
    by_cases hp : a = key
    · subst hp
      simp [cPut, cFind, h']
    · by_cases hk : a = k
      · subst hk
        simp [cPut, cFind, h, hp]
      · simp [cPut, cFind, hp, hk, ih]

theorem walkT_cons_some (out : Bool) (cs : List (Char × CTrie)) (c : Char)
    (ss : List Char) (ch : CTrie) (h : cFind cs c = some ch) :
    walkT (.node out cs) (c :: ss) = walkT ch ss := by
  simp [walkT, h]

theorem walkT_cons_none (out : Bool) (cs : List (Char × CTrie)) (c : Char)
    (ss : List Char) (h : cFind cs c = none) :
    walkT (.node out cs) (c :: ss) = none := by
  simp [walkT, h]

theorem walkT_nil (t : CTrie) : walkT t [] = some t := rfl

theorem inTrie_nil (t : CTrie) : inTrie t [] = true := rfl

theorem walkT_emptyT (s : List Char) (b : Bool) :
    walkT (.node b []) s = if s = [] then some (.node b []) else none := by
  cases s with
  | nil => rfl
  | cons c ss => simp [walkT, cFind]

theorem termAt_emptyT (s : List Char) : termAt (.node false []) s = false := by
  rw [termAt, walkT_emptyT]
  by_cases h : s = [] <;> simp [h]

theorem inTrie_emptyT (s : List Char) (b : Bool) :
    inTrie (.node b []) s = decide (s = []) := by
  rw [inTrie, walkT_emptyT]
  by_cases h : s = [] <;> simp [h]

theorem walkT_append (u v : List Char) : ∀ (t : CTrie),
    walkT t (u ++ v) =
      match walkT t u with
      | none => none
      | some m => walkT m v := by
  induction u with
  | nil => intro t; rfl
  | cons c rest ih =>
    intro t
    obtain ⟨out, cs⟩ := t
    cases hf : cFind cs c with
    | none =>
      rw [show (c :: rest) ++ v = c :: (rest ++ v) from rfl,
        walkT_cons_none out cs c (rest ++ v) hf, walkT_cons_none out cs c rest hf]
    | some ch =>
      rw [show (c :: rest) ++ v = c :: (rest ++ v) from rfl,
        walkT_cons_some out cs c (rest ++ v) ch hf, walkT_cons_some out cs c rest ch hf,
        ih ch]

theorem inTrie_append_left (t : CTrie) (u v : List Char)
    (h : inTrie t (u ++ v) = true) : inTrie t u = true := by
  rw [inTrie] at h ⊢
  rw [walkT_append u v t] at h
  cases hw : walkT t u with
  | none => rw [hw] at h; simp at h
  | some m => simp

theorem termAt_inTrie (t : CTrie) (u : List Char) (h : termAt t u = true) :
    inTrie t u = true := by
  rw [termAt] at h
  rw [inTrie]
  cases hw : walkT t u with
  | none => rw [hw] at h; simp at h
  | some m => simp

/-! #### Suffix utilities -/

theorem suffix_append_same {u x : List Char} (h : u <:+ x) (c : Char) :
    u ++ [c] <:+ x ++ [c] := by
  obtain ⟨a, rfl⟩ := h
  exact ⟨a, by simp⟩

theorem suffix_append_singleton_iff (u A : List Char) (c : Char) :
    u <:+ A ++ [c] ↔ u = [] ∨ ∃ w, w <:+ A ∧ u = w ++ [c] := by
  constructor
  · intro h
    rcases u.eq_nil_or_concat with rfl | ⟨L, b, hu2⟩
    · exact Or.inl rfl
    · rw [List.concat_eq_append] at hu2
      subst hu2
      obtain ⟨a, ha⟩ := h
      have : (a ++ L) ++ [b] = A ++ [c] := by simpa [List.append_assoc] using ha
      obtain ⟨h1, h2⟩ := List.append_inj' this (by simp)
      have hb : b = c := by simpa using h2
      subst hb
      exact Or.inr ⟨L, ⟨a, h1⟩, rfl⟩
  · rintro (rfl | ⟨w, hw, rfl⟩)
    · exact ⟨A ++ [c], by simp⟩
    · exact suffix_append_same hw c

theorem suffix_eq_of_length {u v x : List Char} (h1 : u <:+ x) (h2 : v <:+ x)
    (h : u.length = v.length) : u = v := by
  have huv : u <:+ v := List.suffix_of_suffix_length_le h1 h2 (Nat.le_of_eq h)
  exact huv.eq_of_length h

/-! #### The longest-suffix-in-trie function -/

theorem LTS_inTrie (t : CTrie) : ∀ (x : List Char),
    inTrie t (longestTrieSuffix t x).val = true := by
  intro x
  induction x with
  | nil => exact inTrie_nil t
  | cons c rest ih =>
    by_cases h : inTrie t (c :: rest) = true
    · simp [longestTrieSuffix, h]
    · simpa [longestTrieSuffix, h] using ih

theorem LTS_maximal (t : CTrie) : ∀ (x u : List Char), u <:+ x → inTrie t u = true →
    u.length ≤ (longestTrieSuffix t x).val.length := by
  intro x
  induction x with
  | nil =>
    intro u hu _
    simpa [longestTrieSuffix] using hu.length_le
  | cons c rest ih =>
    intro u hu hin
    by_cases h : inTrie t (c :: rest) = true
    · simpa [longestTrieSuffix, h] using hu.length_le
    · rcases List.suffix_cons_iff.mp hu with rfl | hu'
      · exact absurd hin h
      · simpa [longestTrieSuffix, h] using ih u hu' hin

theorem LTS_unique (t : CTrie) (x u : List Char) (hu : u <:+ x) (hin : inTrie t u = true)
    (hmax : ∀ v, v <:+ x → inTrie t v = true → v.length ≤ u.length) :
    (longestTrieSuffix t x).val = u := by
  have h1 : u.length ≤ (longestTrieSuffix t x).val.length := LTS_maximal t x u hu hin
  have h2 : (longestTrieSuffix t x).val.length ≤ u.length :=
    hmax _ (longestTrieSuffix t x).property (LTS_inTrie t x)
  exact suffix_eq_of_length (longestTrieSuffix t x).property hu (Nat.le_antisymm h2 h1)

/-- Appending a character to the longest trie suffix of `x` and to `x`
itself yields the same longest trie suffix. -/
theorem LTS_append_char (t : CTrie) (x : List Char) (c : Char) :
    (longestTrieSuffix t ((longestTrieSuffix t x).val ++ [c])).val =
      (longestTrieSuffix t (x ++ [c])).val := by
  have hfx : (longestTrieSuffix t x).val ++ [c] <:+ x ++ [c] :=
    suffix_append_same (longestTrieSuffix t x).property c
  apply LTS_unique
  · rcases (suffix_append_singleton_iff _ x c).mp (longestTrieSuffix t (x ++ [c])).property
      with h0 | ⟨w, hw, hwc⟩
    · rw [h0]
      exact ⟨_, List.append_nil _⟩
    · have hvin := LTS_inTrie t (x ++ [c])
      rw [hwc] at hvin ⊢
      have hwin : inTrie t w = true := inTrie_append_left t w [c] hvin
      have hwlen : w.length ≤ (longestTrieSuffix t x).val.length :=
        LTS_maximal t x w hw hwin
      have hwsuf : w <:+ (longestTrieSuffix t x).val :=
        List.suffix_of_suffix_length_le hw (longestTrieSuffix t x).property hwlen
      exact suffix_append_same hwsuf c
  · exact LTS_inTrie t _
  · intro v hv hvin
    exact LTS_maximal t (x ++ [c]) v (hv.trans hfx) hvin

/-! #### `add` on the keyword trie -/

theorem termAt_cons_some (out : Bool) (cs : List (Char × CTrie)) (c : Char)
    (ss : List Char) (ch : CTrie) (h : cFind cs c = some ch) :
    termAt (.node out cs) (c :: ss) = termAt ch ss := by
  rw [termAt, termAt, walkT_cons_some out cs c ss ch h]

theorem termAt_cons_none (out : Bool) (cs : List (Char × CTrie)) (c : Char)
    (ss : List Char) (h : cFind cs c = none) :
    termAt (.node out cs) (c :: ss) = false := by
  rw [termAt, walkT_cons_none out cs c ss h]

theorem inTrie_cons_some (out : Bool) (cs : List (Char × CTrie)) (c : Char)
    (ss : List Char) (ch : CTrie) (h : cFind cs c = some ch) :
    inTrie (.node out cs) (c :: ss) = inTrie ch ss := by
  rw [inTrie, inTrie, walkT_cons_some out cs c ss ch h]

theorem inTrie_cons_none (out : Bool) (cs : List (Char × CTrie)) (c : Char)
    (ss : List Char) (h : cFind cs c = none) :
    inTrie (.node out cs) (c :: ss) = false := by
  rw [inTrie, walkT_cons_none out cs c ss h]
  rfl

theorem termAt_addChars : ∀ (p : List Char) (t : CTrie) (s : List Char),
    termAt (addChars t p) s = true ↔ (s = p ∨ termAt t s = true) := by
  intro p
  induction p with
  | nil =>
    intro t s
    obtain ⟨out, cs⟩ := t
    cases s with
    | nil => simp [addChars, termAt, walkT]
    | cons c ss =>
      rw [show addChars (.node out cs) [] = .node true cs from rfl]
      cases hf : cFind cs c with
      | none =>
        rw [termAt_cons_none true cs c ss hf, termAt_cons_none out cs c ss hf]
        simp
      | some ch =>
        rw [termAt_cons_some true cs c ss ch hf, termAt_cons_some out cs c ss ch hf]
        simp
  | cons a ps ih =>
    intro t s
    obtain ⟨out, cs⟩ := t
    rw [show addChars (.node out cs) (a :: ps) =
        .node out (cPut cs a (addChars ((cFind cs a).getD (.node false [])) ps)) from rfl]
    cases s with
    | nil => simp [termAt, walkT]
    | cons c ss =>
      by_cases hc : c = a
      · subst hc
        rw [termAt_cons_some out _ c ss _ (cFind_cPut_same cs c _)]
        cases hf : cFind cs c with
        | some ch =>
          rw [show (some ch).getD (CTrie.node false []) = ch from rfl]
          rw [ih ch ss, termAt_cons_some out cs c ss ch hf]
          simp
        | none =>
          rw [show (Option.getD none (CTrie.node false [])) = CTrie.node false [] from rfl]
          rw [ih _ ss, termAt_cons_none out cs c ss hf, termAt_emptyT ss]
          simp
      · have hne := cFind_cPut_ne cs c a (addChars ((cFind cs a).getD (.node false [])) ps) hc
        cases hf : cFind cs c with
        | none =>
          rw [termAt_cons_none out _ c ss (hne.trans hf), termAt_cons_none out cs c ss hf]
          simp [hc]
        | some ch =>
          rw [termAt_cons_some out _ c ss ch (hne.trans hf),
            termAt_cons_some out cs c ss ch hf]
          simp [hc]

theorem inTrie_addChars : ∀ (p : List Char) (t : CTrie) (s : List Char),
    inTrie (addChars t p) s = true ↔ (s <+: p ∨ inTrie t s = true) := by
  intro p
  induction p with
  | nil =>
    intro t s
    obtain ⟨out, cs⟩ := t
    cases s with
    | nil => simp [addChars, inTrie, walkT]
    | cons c ss =>
      rw [show addChars (.node out cs) [] = .node true cs from rfl]
      cases hf : cFind cs c with
      | none =>
        rw [inTrie_cons_none true cs c ss hf, inTrie_cons_none out cs c ss hf]
        simp
      | some ch =>
        rw [inTrie_cons_some true cs c ss ch hf, inTrie_cons_some out cs c ss ch hf]
        simp
  | cons a ps ih =>
    intro t s
    obtain ⟨out, cs⟩ := t
    rw [show addChars (.node out cs) (a :: ps) =
        .node out (cPut cs a (addChars ((cFind cs a).getD (.node false [])) ps)) from rfl]
    cases s with
    | nil => simp [inTrie, walkT]
    | cons c ss =>
      by_cases hc : c = a
      · subst hc
        rw [inTrie_cons_some out _ c ss _ (cFind_cPut_same cs c _)]
        cases hf : cFind cs c with
        | some ch =>
          rw [show (some ch).getD (CTrie.node false []) = ch from rfl]
          rw [ih ch ss, inTrie_cons_some out cs c ss ch hf]
          simp [List.cons_prefix_cons]
        | none =>
          rw [show (Option.getD none (CTrie.node false [])) = CTrie.node false [] from rfl]
          rw [ih _ ss, inTrie_cons_none out cs c ss hf, inTrie_emptyT ss]
          constructor
          · rintro (h | h)
            · exact Or.inl (List.cons_prefix_cons.mpr ⟨rfl, h⟩)
            · have hss : ss = [] := by simpa using h
              subst hss
              exact Or.inl (List.cons_prefix_cons.mpr ⟨rfl, List.nil_prefix⟩)
          · rintro (h | h)
            · exact Or.inl (List.cons_prefix_cons.mp h).2
            · simp at h
      · have hne := cFind_cPut_ne cs c a (addChars ((cFind cs a).getD (.node false [])) ps) hc
        cases hf : cFind cs c with
        | none =>
          rw [inTrie_cons_none out _ c ss (hne.trans hf), inTrie_cons_none out cs c ss hf]
          simp [List.cons_prefix_cons, hc]
        | some ch =>
          rw [inTrie_cons_some out _ c ss ch (hne.trans hf),
            inTrie_cons_some out cs c ss ch hf]
          simp [List.cons_prefix_cons, hc]

/-! #### Folding `ahoAdd` over a pattern list -/

theorem aFold_root_termAt (P : List (List Char)) : ∀ (m : AhoM) (s : List Char),
    termAt ((P.foldl ahoAdd m).root) s = true ↔
      ((∃ p ∈ P, p ≠ [] ∧ s = p) ∨ termAt m.root s = true) := by
  induction P with
  | nil => simp
  | cons p P' ih =>
    intro m s
    rw [List.foldl_cons, ih]
    by_cases hp : p = []
    · subst hp
      rw [show ahoAdd m [] = m from rfl]
      constructor
      · rintro (⟨q, hq, hqne, hs⟩ | h)
        · exact Or.inl ⟨q, List.mem_cons_of_mem _ hq, hqne, hs⟩
        · exact Or.inr h
      · rintro (⟨q, hq, hqne, hs⟩ | h)
        · rcases List.mem_cons.mp hq with rfl | hq'
          · exact absurd rfl hqne
          · exact Or.inl ⟨q, hq', hqne, hs⟩
        · exact Or.inr h
    · rw [show (ahoAdd m p).root = addChars m.root p from by simp [ahoAdd, hp]]
      rw [termAt_addChars]
      constructor
      · rintro (⟨q, hq, hqne, hs⟩ | (rfl | h))
        · exact Or.inl ⟨q, List.mem_cons_of_mem _ hq, hqne, hs⟩
        · exact Or.inl ⟨_, List.mem_cons_self _ _, hp, rfl⟩
        · exact Or.inr h
      · rintro (⟨q, hq, hqne, hs⟩ | h)
        · rcases List.mem_cons.mp hq with rfl | hq'
          · exact Or.inr (Or.inl hs)
          · exact Or.inl ⟨q, hq', hqne, hs⟩
        · exact Or.inr (Or.inr h)

theorem aFold_root_inTrie (P : List (List Char)) : ∀ (m : AhoM) (s : List Char),
    inTrie ((P.foldl ahoAdd m).root) s = true ↔
      ((∃ p ∈ P, p ≠ [] ∧ s <+: p) ∨ inTrie m.root s = true) := by
  induction P with
  | nil => simp
  | cons p P' ih =>
    intro m s
    rw [List.foldl_cons, ih]
    by_cases hp : p = []
    · subst hp
      rw [show ahoAdd m [] = m from rfl]
      constructor
      · rintro (⟨q, hq, hqne, hs⟩ | h)
        · exact Or.inl ⟨q, List.mem_cons_of_mem _ hq, hqne, hs⟩
        · exact Or.inr h
      · rintro (⟨q, hq, hqne, hs⟩ | h)
        · rcases List.mem_cons.mp hq with rfl | hq'
          · exact absurd rfl hqne
          · exact Or.inl ⟨q, hq', hqne, hs⟩
        · exact Or.inr h
    · rw [show (ahoAdd m p).root = addChars m.root p from by simp [ahoAdd, hp]]
      rw [inTrie_addChars]
      constructor
      · rintro (⟨q, hq, hqne, hs⟩ | (hpre | h))
        · exact Or.inl ⟨q, List.mem_cons_of_mem _ hq, hqne, hs⟩
        · exact Or.inl ⟨_, List.mem_cons_self _ _, hp, hpre⟩
        · exact Or.inr h
      · rintro (⟨q, hq, hqne, hs⟩ | h)
        · rcases List.mem_cons.mp hq with rfl | hq'
          · exact Or.inr (Or.inl hs)
          · exact Or.inl ⟨q, hq', hqne, hs⟩
        · exact Or.inr (Or.inr h)

theorem aFold_patterns_invariant (P : List (List Char)) : ∀ (m : AhoM),
    (∀ s, termAt m.root s = true → 0 < m.patterns) →
    ∀ s, termAt ((P.foldl ahoAdd m).root) s = true → 0 < (P.foldl ahoAdd m).patterns := by
  induction P with
  | nil => exact fun m h => h
  | cons p P' ih =>
    intro m hm
    rw [List.foldl_cons]
    apply ih
    intro s hs
    by_cases hp : p = []
    · subst hp
      exact hm s hs
    · rw [show (ahoAdd m p).root = addChars m.root p from by simp [ahoAdd, hp]] at hs
      rw [termAt_addChars] at hs
      rw [show (ahoAdd m p).patterns =
          (if termAt m.root p then m.patterns else m.patterns + 1) from by
        simp [ahoAdd, hp]]
      rcases hs with rfl | hs
      · by_cases ht : termAt m.root s = true
        · rw [if_pos ht]
          exact hm s ht
        · rw [if_neg ht]
          omega
      · have := hm s hs
        by_cases ht : termAt m.root p = true
        · rw [if_pos ht]
          exact this
        · rw [if_neg ht]
          omega

theorem aFold_patterns_zero (P : List (List Char)) :
    (P.foldl ahoAdd ⟨.node false [], 0⟩).patterns = 0 ↔ ∀ p ∈ P, p = [] := by
  constructor
  · intro h p hp
    by_contra hpne
    have ht : termAt ((P.foldl ahoAdd ⟨.node false [], 0⟩).root) p = true := by
      rw [aFold_root_termAt]
      exact Or.inl ⟨p, hp, hpne, rfl⟩
    have := aFold_patterns_invariant P ⟨.node false [], 0⟩
      (by intro s hs; rw [termAt_emptyT] at hs; cases hs) p ht
    omega
  · intro h
    induction P with
    | nil => rfl
    | cons p P' ih =>
      rw [List.foldl_cons, show p = [] from h p (List.mem_cons_self _ _),
        show ahoAdd ⟨CTrie.node false [], 0⟩ [] = ⟨CTrie.node false [], 0⟩ from rfl]
      exact ih (fun q hq => h q (List.mem_cons_of_mem _ hq))

/-! #### The fail-chain transition realizes the longest-suffix map -/

theorem failChainStep_nil (t : CTrie) (c : Char) :
    failChainStep t [] c = (longestTrieSuffix t ([] ++ [c])).val := by
  rw [failChainStep]
  rw [dif_pos rfl]
  by_cases h : inTrie t [c] = true
  · simp [longestTrieSuffix, h]
  · simp [longestTrieSuffix, h]

theorem failChainStep_LTS (t : CTrie) : ∀ (n : Nat) (s : List Char), s.length ≤ n →
    ∀ (c : Char), failChainStep t s c = (longestTrieSuffix t (s ++ [c])).val := by
  intro n
  induction n with
  | zero =>
    intro s hs c
    have h0 : s = [] := List.length_eq_zero.mp (Nat.le_zero.mp hs)
    subst h0
    exact failChainStep_nil t c
  | succ n ih =>
    intro s hs c
    cases s with
    | nil => exact failChainStep_nil t c
    | cons a s' =>
      rw [failChainStep]
      rw [dif_neg (by simp : ¬(a :: s' = []))]
      by_cases h : inTrie t ((a :: s') ++ [c]) = true
      · have h2 : inTrie t (a :: (s' ++ [c])) = true := h
        simp [h, longestTrieSuffix, h2]
      · have hfeq : failOf t (a :: s') = (longestTrieSuffix t s').val := rfl
        have hlen : (failOf t (a :: s')).length ≤ n := by
          rw [hfeq]
          have hle := (longestTrieSuffix t s').property.length_le
          simp only [List.length_cons] at hs
          omega
        have h2 : ¬inTrie t (a :: (s' ++ [c])) = true := h
        rw [if_neg (by simpa using h), ih _ hlen c, hfeq, LTS_append_char]
        rw [show (a :: s') ++ [c] = a :: (s' ++ [c]) from rfl]
        simp [longestTrieSuffix, h2]

theorem failChainStep_eq_LTS (t : CTrie) (s : List Char) (c : Char) :
    failChainStep t s c = (longestTrieSuffix t (s ++ [c])).val :=
  failChainStep_LTS t s.length s (Nat.le_refl _) c

/-! #### The match loop -/

theorem outProp_LTS (t : CTrie) (x : List Char) :
    outProp t (longestTrieSuffix t x).val = true ↔
      ∃ u, u <:+ x ∧ termAt t u = true := by
  rw [outProp, List.any_eq_true]
  constructor
  · rintro ⟨u, hu, hterm⟩
    rw [List.mem_tails] at hu
    exact ⟨u, hu.trans (longestTrieSuffix t x).property, hterm⟩
  · rintro ⟨u, hu, hterm⟩
    have hin : inTrie t u = true := termAt_inTrie t u hterm
    have hlen := LTS_maximal t x u hu hin
    have hsuf : u <:+ (longestTrieSuffix t x).val :=
      List.suffix_of_suffix_length_le hu (longestTrieSuffix t x).property hlen
    exact ⟨u, (List.mem_tails u _).mpr hsuf, hterm⟩

theorem ahoMatchLoop_cons (t : CTrie) (s : List Char) (c : Char) (rs : List Char) :
    ahoMatchLoop t s (c :: rs) =
      (if outProp t (failChainStep t s c) then true
       else ahoMatchLoop t (failChainStep t s c) rs) := rfl

theorem ahoMatchLoop_spec (t : CTrie) : ∀ (rest consumed : List Char),
    ahoMatchLoop t (longestTrieSuffix t consumed).val rest = true ↔
      ∃ i, i < rest.length ∧
        outProp t (longestTrieSuffix t (consumed ++ rest.take (i + 1))).val = true := by
  intro rest
  induction rest with
  | nil =>
    intro consumed
    rw [show ahoMatchLoop t (longestTrieSuffix t consumed).val [] = false from rfl]
    simp
  | cons c rs ih =>
    intro consumed
    rw [ahoMatchLoop_cons, failChainStep_eq_LTS, LTS_append_char]
    by_cases h : outProp t (longestTrieSuffix t (consumed ++ [c])).val = true
    · simp only [h, if_true]
      constructor
      · intro _
        refine ⟨0, by simp, ?_⟩
        rw [show (c :: rs).take 1 = [c] from rfl]
        exact h
      · intro _
        trivial
    · have hb : outProp t (longestTrieSuffix t (consumed ++ [c])).val = false := by
        revert h
        cases outProp t (longestTrieSuffix t (consumed ++ [c])).val <;> simp
      simp only [hb]
      rw [if_neg (by simp : ¬false = true)]
      rw [ih (consumed ++ [c])]
      constructor
      · rintro ⟨i, hi, ho⟩
        refine ⟨i + 1, by simpa using Nat.succ_lt_succ hi, ?_⟩
        rw [show (c :: rs).take (i + 1 + 1) = c :: rs.take (i + 1) from rfl]
        rw [show consumed ++ c :: rs.take (i + 1) = (consumed ++ [c]) ++ rs.take (i + 1) from
          by simp]
        exact ho
      · rintro ⟨i, hi, ho⟩
        cases i with
        | zero =>
          rw [show (c :: rs).take 1 = [c] from rfl] at ho
          exact absurd ho h
        | succ j =>
          refine ⟨j, by simpa using Nat.lt_of_succ_lt_succ hi, ?_⟩
          rw [show (c :: rs).take (j + 1 + 1) = c :: rs.take (j + 1) from rfl] at ho
          rw [show consumed ++ c :: rs.take (j + 1) = (consumed ++ [c]) ++ rs.take (j + 1) from
            by simp] at ho
          exact ho

/-- The Aho–Corasick automaton built by folding `add` over a pattern
list matches a text iff some non-empty pattern ends at some position of
the text. -/
theorem ahoMatch_fold (P : List (List Char)) (text : List Char) :
    ahoMatch (P.foldl ahoAdd ⟨.node false [], 0⟩) text = true ↔
      ∃ p ∈ P, p ≠ [] ∧ ∃ i, i < text.length ∧ p <:+ text.take (i + 1) := by
  rw [ahoMatch]
  by_cases hz : (P.foldl ahoAdd ⟨.node false [], 0⟩).patterns = 0
  · rw [if_pos hz]
    constructor
    · intro h
      cases h
    · rintro ⟨p, hp, hpne, _⟩
      exact absurd ((aFold_patterns_zero P).mp hz p hp) hpne
  · rw [if_neg hz]
    rw [show ahoMatchLoop (P.foldl ahoAdd ⟨.node false [], 0⟩).root [] text
        = ahoMatchLoop (P.foldl ahoAdd ⟨.node false [], 0⟩).root
            (longestTrieSuffix (P.foldl ahoAdd ⟨.node false [], 0⟩).root []).val text
      from rfl]
    rw [ahoMatchLoop_spec]
    constructor
    · rintro ⟨i, hi, ho⟩
      rw [outProp_LTS] at ho
      obtain ⟨u, hu, hterm⟩ := ho
      rw [aFold_root_termAt] at hterm
      rcases hterm with ⟨p, hp, hpne, rfl⟩ | hterm
      · exact ⟨u, hp, hpne, i, hi, by simpa using hu⟩
      · rw [show (⟨CTrie.node false [], 0⟩ : AhoM).root = CTrie.node false [] from rfl,
          termAt_emptyT] at hterm
        cases hterm
    · rintro ⟨p, hp, hpne, i, hi, hsuf⟩
      refine ⟨i, hi, ?_⟩
      rw [outProp_LTS]
      refine ⟨p, by simpa using hsuf, ?_⟩
      rw [aFold_root_termAt]
      exact Or.inl ⟨p, hp, hpne, rfl⟩

theorem suffix_take_iff_substring (p text : List Char) (hp : p ≠ []) :
    (∃ i, i < text.length ∧ p <:+ text.take (i + 1)) ↔ ∃ a b, text = a ++ p ++ b := by
  constructor
  · rintro ⟨i, hi, hsuf⟩
    obtain ⟨a, ha⟩ := hsuf
    obtain ⟨b, hb⟩ := List.take_prefix (i + 1) text
    exact ⟨a, b, by rw [← hb, ← ha, List.append_assoc]⟩
  · rintro ⟨a, b, rfl⟩
    have hplen : 0 < p.length := List.length_pos.mpr hp
    refine ⟨a.length + p.length - 1, ?_, ?_⟩
    · simp only [List.length_append]
      omega
    · have hi1 : a.length + p.length - 1 + 1 = a.length + p.length := by omega
      rw [hi1]
      rw [show (a ++ p ++ b).take (a.length + p.length) = a ++ p from
        List.take_left' (by simp)]
      exact ⟨a, rfl⟩

/-! #### The assembled matcher -/

theorem matchName_iff (d : DomainMatcherM) (nm : List Char) :
    matchName d nm = true ↔
      (d.full.matchExact nm = true ∨ d.suffix.matchSuffix nm = true ∨
        ahoMatch d.kw nm = true ∨ d.reg.any (fun r => r nm) = true) := by
  rw [matchName]
  by_cases h1 : d.full.matchExact nm = true
  · simp [h1]
  · rw [if_neg h1]
    by_cases h2 : d.suffix.matchSuffix nm = true
    · simp [h2]
    · rw [if_neg h2]
      by_cases h3 : ahoMatch d.kw nm = true
      · simp [h3]
      · rw [if_neg h3]
        simp [h1, h2, h3]

theorem foldInit_full (rx : List Char → (List Char → Bool)) :
    ∀ (drs : List (DRKind × List Char)) (d : DomainMatcherM),
    (drs.foldl (initStep rx) d).full = (fullVals drs).foldl STrie.add d.full := by
  intro drs
  induction drs with
  | nil => intro d; rfl
  | cons dr drs' ih =>
    intro d
    obtain ⟨k, v⟩ := dr
    rw [List.foldl_cons, ih]
    cases k with
    | suffix => simp [initStep, fullVals, List.filterMap_cons]
    | full => simp [initStep, fullVals, List.filterMap_cons]
    | keyword => simp [initStep, fullVals, List.filterMap_cons]
    | regexp => simp [initStep, fullVals, List.filterMap_cons]

theorem foldInit_suffix (rx : List Char → (List Char → Bool)) :
    ∀ (drs : List (DRKind × List Char)) (d : DomainMatcherM),
    (drs.foldl (initStep rx) d).suffix = (suffixVals drs).foldl STrie.add d.suffix := by
  intro drs
  induction drs with
  | nil => intro d; rfl
  | cons dr drs' ih =>
    intro d
    obtain ⟨k, v⟩ := dr
    rw [List.foldl_cons, ih]
    cases k with
    | suffix => simp [initStep, suffixVals, List.filterMap_cons]
    | full => simp [initStep, suffixVals, List.filterMap_cons]
    | keyword => simp [initStep, suffixVals, List.filterMap_cons]
    | regexp => simp [initStep, suffixVals, List.filterMap_cons]

theorem foldInit_kw (rx : List Char → (List Char → Bool)) :
    ∀ (drs : List (DRKind × List Char)) (d : DomainMatcherM),
    (drs.foldl (initStep rx) d).kw = (kwVals drs).foldl ahoAdd d.kw := by
  intro drs
  induction drs with
  | nil => intro d; rfl
  | cons dr drs' ih =>
    intro d
    obtain ⟨k, v⟩ := dr
    rw [List.foldl_cons, ih]
    cases k with
    | suffix => simp [initStep, kwVals, List.filterMap_cons]
    | full => simp [initStep, kwVals, List.filterMap_cons]
    | keyword => simp [initStep, kwVals, List.filterMap_cons]
    | regexp => simp [initStep, kwVals, List.filterMap_cons]

theorem foldInit_reg (rx : List Char → (List Char → Bool)) :
    ∀ (drs : List (DRKind × List Char)) (d : DomainMatcherM),
    (drs.foldl (initStep rx) d).reg = d.reg ++ regVals rx drs := by
  intro drs
  induction drs with
  | nil => intro d; simp [regVals]
  | cons dr drs' ih =>
    intro d
    obtain ⟨k, v⟩ := dr
    rw [List.foldl_cons, ih]
    cases k with
    | suffix => simp [initStep, regVals, List.filterMap_cons]
    | full => simp [initStep, regVals, List.filterMap_cons]
    | keyword => simp [initStep, regVals, List.filterMap_cons]
    | regexp => simp [initStep, regVals, List.filterMap_cons]

theorem initDM_full_matchExact (rx : List Char → (List Char → Bool))
    (drs : List (DRKind × List Char)) (nm : List Char)
    (hsf : ∀ dr ∈ drs, (dr.1 = DRKind.suffix ∨ dr.1 = DRKind.full) →
      lowerStr (NormalizeDomain dr.2) ≠ []) :
    (initDM rx drs).full.matchExact nm = true ↔
      ∃ dr ∈ drs, dr.1 = DRKind.full ∧ nm = lowerStr (NormalizeDomain dr.2) := by
  rw [show (initDM rx drs).full = (fullVals drs).foldl STrie.add (.node [] false) from
    foldInit_full rx drs emptyDM]
  rw [matchExact_foldAdd]
  constructor
  · rintro ⟨hne, hmem⟩
    rw [fullVals, List.mem_filterMap] at hmem
    obtain ⟨dr, hdr, hif⟩ := hmem
    by_cases hk : dr.1 = DRKind.full
    · rw [if_pos hk] at hif
      exact ⟨dr, hdr, hk, (Option.some_inj.mp hif).symm⟩
    · rw [if_neg hk] at hif
      cases hif
  · rintro ⟨dr, hdr, hk, rfl⟩
    refine ⟨hsf dr hdr (Or.inr hk), ?_⟩
    rw [fullVals, List.mem_filterMap]
    exact ⟨dr, hdr, by rw [if_pos hk]⟩

theorem initDM_suffix_matchSuffix (rx : List Char → (List Char → Bool))
    (drs : List (DRKind × List Char)) (nm : List Char)
    (hsf : ∀ dr ∈ drs, (dr.1 = DRKind.suffix ∨ dr.1 = DRKind.full) →
      lowerStr (NormalizeDomain dr.2) ≠ []) :
    (initDM rx drs).suffix.matchSuffix nm = true ↔
      ∃ dr ∈ drs, dr.1 = DRKind.suffix ∧
        (nm = lowerStr (NormalizeDomain dr.2) ∨
          ∃ a, nm = a ++ '.' :: lowerStr (NormalizeDomain dr.2)) := by
  rw [show (initDM rx drs).suffix = (suffixVals drs).foldl STrie.add (.node [] false) from
    foldInit_suffix rx drs emptyDM]
  rw [matchSuffix_foldAdd]
  constructor
  · rintro ⟨p, hmem, hpne, hsuf⟩
    rw [suffixVals, List.mem_filterMap] at hmem
    obtain ⟨dr, hdr, hif⟩ := hmem
    by_cases hk : dr.1 = DRKind.suffix
    · rw [if_pos hk] at hif
      have hv := Option.some_inj.mp hif
      rw [← hv] at hsuf
      exact ⟨dr, hdr, hk, hsuf⟩
    · rw [if_neg hk] at hif
      cases hif
  · rintro ⟨dr, hdr, hk, hsem⟩
    refine ⟨lowerStr (NormalizeDomain dr.2), ?_, hsf dr hdr (Or.inl hk), hsem⟩
    rw [suffixVals, List.mem_filterMap]
    exact ⟨dr, hdr, by rw [if_pos hk]⟩

theorem initDM_kw_match (rx : List Char → (List Char → Bool))
    (drs : List (DRKind × List Char)) (nm : List Char)
    (hkw : ∀ dr ∈ drs, dr.1 = DRKind.keyword → lowerStr dr.2 ≠ []) :
    ahoMatch (initDM rx drs).kw nm = true ↔
      ∃ dr ∈ drs, dr.1 = DRKind.keyword ∧ ∃ a b, nm = a ++ lowerStr dr.2 ++ b := by
  rw [show (initDM rx drs).kw = (kwVals drs).foldl ahoAdd ⟨.node false [], 0⟩ from
    foldInit_kw rx drs emptyDM]
  rw [ahoMatch_fold]
  constructor
  · rintro ⟨p, hmem, hpne, hpos⟩
    rw [kwVals, List.mem_filterMap] at hmem
    obtain ⟨dr, hdr, hif⟩ := hmem
    by_cases hk : dr.1 = DRKind.keyword
    · rw [if_pos hk] at hif
      have hv := Option.some_inj.mp hif
      refine ⟨dr, hdr, hk, ?_⟩
      rw [hv]
      exact (suffix_take_iff_substring p nm hpne).mp hpos
    · rw [if_neg hk] at hif
      cases hif
  · rintro ⟨dr, hdr, hk, hinf⟩
    have hpne := hkw dr hdr hk
    refine ⟨lowerStr dr.2, ?_, hpne, (suffix_take_iff_substring _ nm hpne).mpr hinf⟩
    rw [kwVals, List.mem_filterMap]
    exact ⟨dr, hdr, by rw [if_pos hk]⟩

theorem initDM_reg_any (rx : List Char → (List Char → Bool))
    (drs : List (DRKind × List Char)) (nm : List Char) :
    (initDM rx drs).reg.any (fun r => r nm) = true ↔
      ∃ dr ∈ drs, dr.1 = DRKind.regexp ∧ rx dr.2 nm = true := by
  rw [show (initDM rx drs).reg = regVals rx drs from by
    have h := foldInit_reg rx drs emptyDM
    simpa using h]
  rw [List.any_eq_true]
  constructor
  · rintro ⟨r, hmem, hr⟩
    rw [regVals, List.mem_filterMap] at hmem
    obtain ⟨dr, hdr, hif⟩ := hmem
    by_cases hk : dr.1 = DRKind.regexp
    · rw [if_pos hk] at hif
      have hv := Option.some_inj.mp hif
      rw [← hv] at hr
      exact ⟨dr, hdr, hk, hr⟩
    · rw [if_neg hk] at hif
      cases hif
  · rintro ⟨dr, hdr, hk, hr⟩
    refine ⟨rx dr.2, ?_, hr⟩
    rw [regVals, List.mem_filterMap]
    exact ⟨dr, hdr, by rw [if_pos hk]⟩

/-! ### Claim theorems -/

/-- C2: the rule engine evaluates rules in configured order and returns
the Perform result of the first rule whose expression is true — success
or error alike, so an action error is returned without attempting later
rules; rules after the first matching rule are never evaluated (the
match trace is exactly the rules up to and including the matching one,
and only the matching rule's action runs); when every rule's expression
is false the engine returns the `no rule match` error. -/
theorem engine_first_match {Req Msg : Type} (rules : List (DNSRule Req Msg)) (req : Req) :
    (∀ i (hi : i < rules.length),
      (∀ j (hj : j < i), (rules.get ⟨j, lt_trans hj hi⟩).matchFn req = .ok false) →
      (rules.get ⟨i, hi⟩).matchFn req = .ok true →
      ExecuteT rules req =
        ((rules.get ⟨i, hi⟩).performFn req,
          (rules.take (i+1)).map DNSRule.name,
          [(rules.get ⟨i, hi⟩).name]))
    ∧ ((∀ i (hi : i < rules.length), (rules.get ⟨i, hi⟩).matchFn req = .ok false) →
      ExecuteT rules req = (.error .noRuleMatch, rules.map DNSRule.name, [])) := by
  induction rules with
  | nil =>
    refine ⟨?_, ?_⟩
    · intro i hi
      exact absurd hi (by simp)
    · intro _
      rfl
  | cons r rest ih =>
    refine ⟨?_, ?_⟩
    · intro i hi hprev htrue
      cases i with
      | zero =>
        have hr : r.matchFn req = .ok true := htrue
        simp [ExecuteT, hr]
      | succ j =>
        have hr : r.matchFn req = .ok false := hprev 0 (Nat.succ_pos j)
        have hj : j < rest.length := by
          simpa [Nat.succ_lt_succ_iff] using hi
        have hprev' : ∀ k (hk : k < j),
            (rest.get ⟨k, lt_trans hk hj⟩).matchFn req = .ok false := by
          intro k hk
          exact hprev (k+1) (Nat.succ_lt_succ hk)
        have heq := (ih.1) j hj hprev' htrue
        simp [ExecuteT, hr, heq]
    · intro hall
      have hr : r.matchFn req = .ok false := hall 0 (Nat.succ_pos _)
      have hall' : ∀ i (hi : i < rest.length),
          (rest.get ⟨i, hi⟩).matchFn req = .ok false := by
        intro i hi
        exact hall (i+1) (Nat.succ_lt_succ hi)
      have heq := (ih.2) hall'
      simp [ExecuteT, hr, heq]

/-- A concrete rule list for the C2 witness: the second rule is the first
whose expression is true. -/
def ruleA : DNSRule Nat Nat := ⟨10, fun _ => .ok false, fun _ => .ok 0⟩

def ruleB : DNSRule Nat Nat := ⟨11, fun _ => .ok true, fun q => .ok (q+1)⟩

def ruleC : DNSRule Nat Nat := ⟨12, fun _ => .ok true, fun _ => .ok 2⟩

/-- Witness for C2 at a concrete rule list and request. -/
theorem engine_first_match_witness :
    ExecuteT [ruleA, ruleB, ruleC] 5 = (.ok 6, [10, 11], [11]) := by
  have h := (engine_first_match [ruleA, ruleB, ruleC] 5).1 1 (by decide)
    (by
      intro j hj
      have hj0 : j = 0 := by omega
      subst hj0
      rfl)
    rfl
  simpa [ruleA, ruleB, ruleC] using h

/-- C3 counterexample: a response whose answer section holds TTLs 0 and
300 is not cached at all (`storeExpire` returns `none`) because the
plain minimum of the answer section is 0, while the claimed policy
(minimum positive TTL) would cache it for 300 seconds. -/
theorem store_zero_ttl_counterexample :
    storeExpire 100 mixedTTLMsg = none ∧ specMinPositiveTTL mixedTTLMsg = some 300 := by
  decide

/-- C3 (amended): `cacheManager.store` caches a response iff the first
non-empty section in the order answer, authority, additional has a
positive plain minimum TTL — that first non-empty section wins even when
all its TTLs are zero and a later section has positive TTLs — and the
entry then expires at `now +` that minimum; the extracted value really
is the minimum TTL of that section. -/
theorem store_min_ttl (now : Nat) (m : DnsSections) :
    storeExpire now m =
      (match sectionMinTTL (firstSection m) with
        | none => none
        | some t => if t = 0 then none else some (now + t)) ∧
    (∀ t, sectionMinTTL (firstSection m) = some t →
      t ∈ (firstSection m).map RR.ttl ∧ ∀ rr ∈ firstSection m, t ≤ rr.ttl) := by
  refine ⟨?_, ?_⟩
  · unfold storeExpire
    rw [extractTTL_eq]
    cases h : sectionMinTTL (firstSection m) with
    | none => simp
    | some t =>
      by_cases ht : t = 0 <;> simp [ht]
  · intro t ht
    cases hfs : firstSection m with
    | nil => simp [sectionMinTTL, hfs] at ht
    | cons h tl =>
      rw [hfs] at ht
      have hteq : t = tl.foldl (fun a rr => Nat.min a rr.ttl) h.ttl := by
        simpa [sectionMinTTL] using ht.symm
      have hmap : tl.foldl (fun a rr => Nat.min a rr.ttl) h.ttl =
          (tl.map RR.ttl).foldl Nat.min h.ttl := by
        rw [List.foldl_map]
      have hmin := foldl_min_is_min (tl.map RR.ttl) h.ttl
      refine ⟨?_, ?_⟩
      · rw [hteq, hmap, List.map_cons]
        rcases hmin.2 with heq | hmem
        · rw [heq]
          exact List.mem_cons_self _ _
        · exact List.mem_cons_of_mem _ hmem
      · intro rr hrr
        rcases List.mem_cons.mp hrr with rfl | hrr
        · rw [hteq, hmap]
          exact hmin.1.1
        · rw [hteq, hmap]
          exact hmin.1.2 rr.ttl (List.mem_map_of_mem RR.ttl hrr)

/-- Witness for C3 (amended) at a concrete response. -/
theorem store_min_ttl_witness :
    storeExpire 4 (⟨[⟨7⟩, ⟨3⟩], [], []⟩ : DnsSections) = some 7 ∧
      3 ∈ (firstSection ⟨[⟨7⟩, ⟨3⟩], [], []⟩).map RR.ttl ∧
      ∀ rr ∈ firstSection ⟨[⟨7⟩, ⟨3⟩], [], []⟩, 3 ≤ rr.ttl := by
  have h := store_min_ttl 4 ⟨[⟨7⟩, ⟨3⟩], [], []⟩
  refine ⟨h.1.trans (by decide), h.2 3 (by decide)⟩

/-- C7 counterexample: a message with opcode 1 (not QUERY) is returned
from the handler without any response being written — in particular no
SERVFAIL reply — and the engine is not invoked; the claim asserts a
SERVFAIL answer. -/
theorem handleDNS_invalid_counterexample :
    handleDNS engineStub invalidOpcodeReq = (.dropped, false) ∧
      handleDNS engineStub invalidOpcodeReq ≠
        (.wrote (setRcode invalidOpcodeReq RcodeServerFailure), true) := by
  decide

/-- C7 (amended): an invalid inbound message — opcode different from
QUERY or empty question section — is logged and dropped: the handler
writes nothing (it does not answer SERVFAIL) and never invokes the rule
engine; a valid message is forwarded to the engine, whose response is
written, with an engine error answered by SERVFAIL. -/
theorem handleDNS_invalid_dropped (engine : DnsMsg → Except GoErr DnsMsg) (req : DnsMsg) :
    (req.opcode ≠ OpcodeQuery ∨ req.question = [] →
      handleDNS engine req = (.dropped, false)) ∧
    (req.opcode = OpcodeQuery → req.question ≠ [] →
      (∀ resp, engine req = .ok resp → handleDNS engine req = (.wrote resp, true)) ∧
      (∀ e, engine req = .error e →
        handleDNS engine req = (.wrote (setRcode req RcodeServerFailure), true))) := by
  refine ⟨?_, ?_⟩
  · intro h
    simp [handleDNS, h]
  · intro h1 h2
    refine ⟨?_, ?_⟩
    · intro resp hresp
      simp [handleDNS, h1, h2, hresp]
    · intro e he
      simp [handleDNS, h1, h2, he]

/-- A valid request for the C7 witness. -/
def validReq : DnsMsg :=
  { msgId := 3, opcode := 0, rcode := 0,
    question := [⟨['a'], 1, 1⟩], response := false }

/-- Witness for C7 (amended): the valid path reaches the engine and the
invalid path stays dropped. -/
theorem handleDNS_witness :
    handleDNS engineStub validReq = (.wrote (setRcode validReq 0), true) ∧
      handleDNS engineStub invalidOpcodeReq = (.dropped, false) := by
  refine ⟨?_, ?_⟩
  · exact ((handleDNS_invalid_dropped engineStub validReq).2 rfl
      (by decide)).1 (setRcode validReq 0) rfl
  · exact (handleDNS_invalid_dropped engineStub invalidOpcodeReq).1 (by decide)

/-- C8 counterexample: in the `cacheManager` revision, a configured size
of 0 is not adjusted and reaches `lru.New`, which rejects non-positive
sizes, so `newCacheManager` panics — size 0 does not leave the process
running normally there; moreover a negative size is adjusted to 1000, an
enabled cache, not to a disabled one. -/
theorem configure_cache_zero_counterexample :
    ConfigureCacheMgr 0 = .error .initLruPanic ∧ configureCacheSizeMgr (-1) = 1000 :=
  ⟨rfl, rfl⟩

/-- C8 (amended): in the `cacheResolver` revision size 0 does disable
caching — `TryEnableResolverCache` returns the downstream resolver
unchanged for every non-positive size, so each query is handled by the
downstream resolver itself and nothing is ever stored — and
`ConfigureCache` there adjusts only negative sizes (to 0).  In the
`cacheManager` revision, however, `ConfigureCache` adjusts negative
sizes to 1000 (an enabled cache) and a configured size of 0 makes
`newCacheManager` panic on the `lru.New` error. -/
theorem cache_size_zero (size : Int) (r : Resolver) :
    (size ≤ 0 → TryEnableResolverCache size r = r) ∧
    (size < 0 → configureCacheSizeRes size = 0) ∧
    (0 ≤ size → configureCacheSizeRes size = size) ∧
    (size = 0 → ConfigureCacheMgr size = .error .initLruPanic) ∧
    (size < 0 → ConfigureCacheMgr size = .ok ⟨1000⟩) ∧
    (0 < size → ConfigureCacheMgr size = .ok ⟨size⟩) := by
  refine ⟨?_, ?_, ?_, ?_, ?_, ?_⟩ <;> intro h
  · simp [TryEnableResolverCache, h]
  · simp [configureCacheSizeRes, h]
  · simp [configureCacheSizeRes, not_lt.mpr h]
  · subst h
    rfl
  · simp [ConfigureCacheMgr, configureCacheSizeMgr, newCacheManager, lruNew, h]
  · have h1 : ¬ size < 0 := by omega
    have h2 : ¬ size ≤ 0 := by omega
    simp [ConfigureCacheMgr, configureCacheSizeMgr, newCacheManager, lruNew, h1, h2]

/-- Witness for C8 (amended) at size 0 and a concrete resolver. -/
theorem cache_size_zero_witness :
    TryEnableResolverCache 0 (.base 1) = .base 1 ∧
      ConfigureCacheMgr 0 = .error .initLruPanic := by
  have h := cache_size_zero 0 (.base 1)
  exact ⟨h.1 (by decide), h.2.2.2.1 rfl⟩

/-- C6: when lazy mode is enabled and a cached entry is expired, at most
one background refresh is in flight per key at any time; a key already
present in the in-flight set is never scheduled again (the scheduling
step is a no-op) until its marker is cleared; the marker is cleared by
the deferred cleanup regardless of whether the refresh succeeded; and
every caller that hits an expired entry under lazy mode is served the
stale cached response. -/
theorem lazy_single_flight (s : RefreshState) (hs : ReachableR s) (k : Nat) :
    s.running k ≤ 1 ∧
    (k ∈ s.inflight → stepRefresh s (.sched k) = s) ∧
    (∀ b₁ b₂, stepRefresh s (.done k b₁) = stepRefresh s (.done k b₂)) ∧
    (∀ (Msg : Type) (m : Msg), cacheQueryServe (some (m, true)) true = .stale m) := by
  have hinv := reachable_refresh_invariant s hs
  refine ⟨?_, ?_, ?_, ?_⟩
  · rw [hinv.2 k]
    by_cases hk : k ∈ s.inflight <;> simp [hk]
  · intro hk
    simp [stepRefresh, scheduleBegin, hk]
  · intro b₁ b₂
    rfl
  · intro Msg m
    rfl

/-- Witness for C6 at the concrete reachable state with one refresh in
flight for key 5. -/
theorem lazy_single_flight_witness :
    (stepRefresh ⟨[], fun _ => 0⟩ (.sched 5)).running 5 ≤ 1 ∧
    (5 ∈ (stepRefresh ⟨[], fun _ => 0⟩ (.sched 5)).inflight →
      stepRefresh (stepRefresh ⟨[], fun _ => 0⟩ (.sched 5)) (.sched 5) =
        stepRefresh ⟨[], fun _ => 0⟩ (.sched 5)) ∧
    (∀ b₁ b₂, stepRefresh (stepRefresh ⟨[], fun _ => 0⟩ (.sched 5)) (.done 5 b₁) =
      stepRefresh (stepRefresh ⟨[], fun _ => 0⟩ (.sched 5)) (.done 5 b₂)) ∧
    (∀ (Msg : Type) (m : Msg), cacheQueryServe (some (m, true)) true = .stale m) :=
  lazy_single_flight _ (.sched _ 5 .init) 5

/-- C1: for every rule expression over registered matchers (every
surface expression `e` printed to tokens with the minimal parentheses
that the precedence order `or < and < not` and left associativity
require), compiling through `shuntingYard` and the postfix fold yields
the tree of `e`, and evaluating that tree computes the boolean function
of `e`; evaluation short-circuits: the trace of invoked matchers is the
short-circuit trace (AND skips its right operand when the left is
false, OR skips its right operand when the left is true), at the node
level an AND whose left operand is false and an OR whose left operand
is true never invoke the right operand's matchers, and a NOT node
returns the negation of its child's result. -/
theorem expression_compiler_correct {α : Type} (e : SExpr) (reg : Nat → Option α)
    (mf : Nat → α) (hreg : ∀ s ∈ ids e, reg s = some (mf s)) :
    parseExpression (pr e 1) reg = .ok (mapTree mf e) ∧
    (∀ (g : α → Except GoErr Bool) (f : Nat → Bool),
      (∀ s ∈ ids e, g (mf s) = .ok (f s)) →
      evalT g (mapTree mf e) = (.ok (bsem f e), (strace f e).map mf)) ∧
    (∀ (g : α → Except GoErr Bool) (t : ExprNode α), (evalT g t).1 = evalNode g t) ∧
    (∀ (g : α → Except GoErr Bool) (l r c : ExprNode α),
      ((evalT g l).1 = .ok false → evalT g (.andN l r) = (.ok false, (evalT g l).2)) ∧
      ((evalT g l).1 = .ok true → evalT g (.orN l r) = (.ok true, (evalT g l).2)) ∧
      (∀ b, (evalT g c).1 = .ok b →
        evalT g (.notN c) = (.ok (!b), (evalT g c).2))) := by
  refine ⟨?_, ?_, ?_, ?_⟩
  · unfold parseExpression
    rw [shuntingYard_pr e]
    show parseRPNLoop reg (post e) [] = _
    rw [show post e = post e ++ [] by simp]
    rw [parseRPN_post reg mf e hreg [] []]
    rfl
  · intro g f hg
    exact evalT_mapTree g mf f e hg
  · intro g t
    exact evalT_fst_evalNode g t
  · intro g l r c
    refine ⟨?_, ?_, ?_⟩
    · intro h
      simp [evalT, h]
    · intro h
      simp [evalT, h]
    · intro b h
      simp [evalT, h]

/-- Witness for C1 at the expression `a && ! b || c` with the assignment
a := true, b := false, c := false. -/
theorem expression_compiler_correct_witness :
    parseExpression (pr exprW 1) (fun s => some s) = .ok (mapTree id exprW) ∧
    evalT (fun s => .ok (decide (s = 1))) (mapTree id exprW) = (.ok true, [1, 2]) := by
  have h := expression_compiler_correct (α := Nat) exprW (fun s => some s) id
    (by intro s _; rfl)
  refine ⟨h.1, ?_⟩
  have h2 := h.2.1 (fun s => .ok (decide (s = 1))) (fun s => decide (s = 1))
    (by intro s _; rfl)
  simpa [exprW, bsem, strace] using h2

/-- C10: for every input byte slice the geosite decoder terminates and
returns either a parsed category map or an error — it is a total
function, definable here by well-founded recursion on the remaining
bytes exactly because every parse loop and the recursive group-skipping
strictly advance the read offset; every successful varint, tag, length
and skip read is bounds-checked: it ends no earlier than its start
(strictly later for varint, tag and length reads) and never past the
end of the slice; a successful varint spans at most 10 bytes; and a
slice whose remaining bytes all carry the continuation bit makes the
varint reader fail (via the shift ≥ 64 overflow rejection or the bounds
check) rather than succeed. -/
theorem geosite_decoder_total :
    (∀ data : List Byte,
      (∃ m, parseGeoSiteList data = .ok m) ∨ (∃ e, parseGeoSiteList data = .error e)) ∧
    (∀ (data : List Byte) (offset v : Nat) (o : OffsetAfter data offset),
      readVarint data offset = .ok (v, o) →
      offset < o.val ∧ o.val ≤ data.length ∧ o.val - offset ≤ 10) ∧
    (∀ (data : List Byte) (offset : Nat),
      (∀ i, offset ≤ i → ∀ (hi : i < data.length), 128 ≤ (data.get ⟨i, hi⟩).val) →
      ∀ (v : Nat) (o : OffsetAfter data offset), readVarint data offset ≠ .ok (v, o)) ∧
    (∀ (data : List Byte) (offset fn wt : Nat) (o : OffsetAfter data offset),
      readTag data offset = .ok (fn, wt, o) → offset < o.val ∧ o.val ≤ data.length) ∧
    (∀ (data : List Byte) (offset : Nat) (bs : List Byte) (o : OffsetAfter data offset),
      readBytes data offset = .ok (bs, o) → offset < o.val ∧ o.val ≤ data.length) ∧
    (∀ (data : List Byte) (offset : Nat) (hoff : offset ≤ data.length) (wt : Nat)
      (o : {x : Nat // offset ≤ x ∧ x ≤ data.length}),
      skipField data offset hoff wt = .ok o → offset ≤ o.val ∧ o.val ≤ data.length) ∧
    (∀ (data : List Byte) (offset : Nat) (o : {x : Nat // offset < x ∧ x ≤ data.length}),
      skipGroup data offset = .ok o → offset < o.val ∧ o.val ≤ data.length) := by
  refine ⟨?_, ?_, ?_, ?_, ?_, ?_, ?_⟩
  · intro data
    cases h : parseGeoSiteList data with
    | ok m => exact Or.inl ⟨m, rfl⟩
    | error e => exact Or.inr ⟨e, rfl⟩
  · intro data offset v o hok
    exact ⟨o.2.1, o.2.2, readVarintAux_span data offset 0 0 (by omega) v o hok⟩
  · intro data offset hc v o
    exact readVarintAux_cont_error data offset 0 0 hc v o
  · intro data offset fn wt o _
    exact ⟨o.2.1, o.2.2⟩
  · intro data offset bs o _
    exact ⟨o.2.1, o.2.2⟩
  · intro data offset hoff wt o _
    exact ⟨o.2.1, o.2.2⟩
  · intro data offset o _
    exact ⟨o.2.1, o.2.2⟩

/-- Witness for C10: a two-byte varint read and the rejection of a run
of ten continuation bytes. -/
theorem geosite_decoder_total_witness :
    ((0:Nat) < 2 ∧ (2:Nat) ≤ ([150, 1] : List Byte).length ∧ (2:Nat) - 0 ≤ 10) ∧
    readVarint (List.replicate 10 (128 : Byte)) 0 ≠ .ok (0, ⟨1, by simp⟩) := by
  refine ⟨?_, ?_⟩
  · refine geosite_decoder_total.2.1 [150, 1] 0 150 ⟨2, by decide⟩ ?_
    have h150 : ((150 : Byte) : Nat) = 150 := rfl
    have h1 : ((1 : Byte) : Nat) = 1 := rfl
    simp [readVarint, readVarintAux, h150, h1]
  · exact geosite_decoder_total.2.2.1 (List.replicate 10 (128 : Byte)) 0
      (by
        intro i _ hi
        simp only [List.get_eq_getElem, List.getElem_replicate]
        decide)
      0 ⟨1, by simp⟩

/-- C5 counterexample: with N = 2 children and `parallel = 3`, the
resolver-package group resolver launches 3 children at the rotated
indices `(i+pos) mod 2` — a list of length 3 ≠ min(3,2) with a duplicate
child — so the dispatch is not K = min(parallel, N) distinct children of
a random permutation. -/
theorem group_rotation_counterexample :
    groupPickRotation 3 0 2 = [0, 1, 0] ∧
      min 3 2 = 2 ∧ ¬ (groupPickRotation 3 0 2).Nodup := by
  decide

/-- C5 (amended): the outbound `Group.pickResolvers` dispatches to
K = min(parallel, N) pairwise-distinct valid child indices — the prefix
of the shuffled permutation of the N indices; the resolver-package
`groupResolver.Query` instead launches exactly `concurrent` children at
the rotated indices `(i+pos) mod N`, distinct when `concurrent ≤ N`.
When every dispatched child fails, `Group.Query` returns the first
observed error and, when no child produced an error object, the
synthetic `all outbound resolvers failed` error; `groupResolver.Query`
likewise returns the first error observed by the errgroup, or its
synthetic `no err return and no dns record found?` error. -/
theorem group_pick_and_failure {Msg : Type} :
    (∀ parallel n (shuffled : List Nat), shuffled.Perm (List.range n) →
      (pickResolvers parallel n shuffled).length = min parallel n ∧
      (pickResolvers parallel n shuffled).Nodup ∧
      ∀ i ∈ pickResolvers parallel n shuffled, i < n) ∧
    (∀ concurrent pos n,
      (groupPickRotation concurrent pos n).length = concurrent ∧
      (concurrent ≤ n → (groupPickRotation concurrent pos n).Nodup) ∧
      (0 < n → ∀ i ∈ groupPickRotation concurrent pos n, i < n)) ∧
    (∀ (outcomes : List (Option Msg × Option GoErr)),
      (∀ p ∈ outcomes, p.2 = none → p.1 = none) →
      groupWaitLoop outcomes none =
        .error ((firstSomeErr outcomes).getD .allResolversFailed)) ∧
    (∀ (outcomes : List (Except GoErr Msg)),
      (∀ o ∈ outcomes, ∃ e, o = .error e) →
      groupResolverQueryOutcome outcomes =
        match egFirstErr outcomes with
        | some e => .error e
        | none => .error .noErrNoRecord) := by
  refine ⟨?_, ?_, ?_, ?_⟩
  · intro parallel n shuffled hperm
    have hlen : shuffled.length = n := by
      simpa using hperm.length_eq
    have hnd : shuffled.Nodup := hperm.nodup_iff.mpr (List.nodup_range n)
    refine ⟨?_, ?_, ?_⟩
    · simp [pickResolvers, hlen, Nat.min_assoc]
    · exact List.Nodup.sublist (List.take_sublist _ _) hnd
    · intro i hi
      have hmem : i ∈ shuffled := (List.take_sublist _ _).subset hi
      have := hperm.mem_iff.mp hmem
      simpa using this
  · intro concurrent pos n
    refine ⟨?_, ?_, ?_⟩
    · simp [groupPickRotation]
    · intro hcn
      refine List.Nodup.map_on ?_ (List.nodup_range concurrent)
      intro i hi j hj hij
      have hi' : i < concurrent := List.mem_range.mp hi
      have hj' : j < concurrent := List.mem_range.mp hj
      have hmodeq : Nat.ModEq n i j := Nat.ModEq.add_right_cancel' pos hij
      have hmods : i % n = j % n := hmodeq
      rwa [Nat.mod_eq_of_lt (lt_of_lt_of_le hi' hcn),
        Nat.mod_eq_of_lt (lt_of_lt_of_le hj' hcn)] at hmods
    · intro hn i hi
      rcases List.mem_map.mp hi with ⟨j, _, rfl⟩
      exact Nat.mod_lt _ hn
  · intro outcomes h
    simpa using groupWaitLoop_all_fail outcomes h none
  · intro outcomes h
    unfold groupResolverQueryOutcome
    rw [egLastOk_all_error outcomes h]

/-- Witness for C5 (amended) at concrete inputs. -/
theorem group_pick_witness :
    ((pickResolvers 2 3 [1, 0, 2]).length = min 2 3 ∧
      (pickResolvers 2 3 [1, 0, 2]).Nodup ∧
      ∀ i ∈ pickResolvers 2 3 [1, 0, 2], i < 3) ∧
    @groupWaitLoop Nat [(none, some (.tagged 1)), (none, none)] none =
      .error ((@firstSomeErr Nat [(none, some (.tagged 1)), (none, none)]).getD .allResolversFailed) ∧
    @groupResolverQueryOutcome Nat [.error (.tagged 2), .error (.tagged 3)] =
      (match @egFirstErr Nat [.error (.tagged 2), .error (.tagged 3)] with
        | some e => .error e
        | none => .error .noErrNoRecord) := by
  refine ⟨?_, ?_, ?_⟩
  · exact (@group_pick_and_failure Nat).1 2 3 [1, 0, 2] (by decide)
  · exact (@group_pick_and_failure Nat).2.2.1 _ (by decide)
  · exact (@group_pick_and_failure Nat).2.2.2 _
      (by
        intro o ho
        rcases List.mem_cons.mp ho with rfl | ho
        · exact ⟨.tagged 2, rfl⟩
        · rcases List.mem_cons.mp ho with rfl | ho
          · exact ⟨.tagged 3, rfl⟩
          · cases ho)

/-- C4 is refuted as stated: the suffix pattern `"."` normalizes to the
empty string, which `add` ignores, so the matcher rejects the query
name `"."` even though the claim's reference semantics (equality modulo
case and trailing dot) accepts it. -/
theorem domain_matcher_counterexample :
    matchName (initDM (fun _ _ => false) [(DRKind.suffix, ['.'])])
        (lowerStr (NormalizeDomain ['.'])) = false ∧
      specDomainSemantics (fun _ _ => false) [(DRKind.suffix, ['.'])]
        (lowerStr (NormalizeDomain ['.'])) := by
  constructor
  · rfl
  · exact Or.inr (Or.inl ⟨(DRKind.suffix, ['.']), List.mem_cons_self _ _, rfl, Or.inl rfl⟩)

/-- C4 (amended): when every configured suffix and full pattern
normalizes to a non-empty string and every keyword lowercases to a
non-empty string, the assembled domain matcher — label trie for full,
label trie with early exit for suffix, Aho–Corasick automaton for
keywords, compiled predicates for regexps — accepts a query name
exactly when the reference semantics accepts the normalized name: full
patterns by equality, suffix patterns label-aligned (equal or preceded
by a dot), keywords as substrings, regexps by their predicate. -/
theorem domain_matcher_semantics (rxCompile : List Char → (List Char → Bool))
    (drs : List (DRKind × List Char)) (name : List Char)
    (hsf : ∀ dr ∈ drs, (dr.1 = DRKind.suffix ∨ dr.1 = DRKind.full) →
      lowerStr (NormalizeDomain dr.2) ≠ [])
    (hkw : ∀ dr ∈ drs, dr.1 = DRKind.keyword → lowerStr dr.2 ≠ []) :
    matchName (initDM rxCompile drs) (lowerStr (NormalizeDomain name)) = true ↔
      specDomainSemantics rxCompile drs (lowerStr (NormalizeDomain name)) := by
  rw [matchName_iff]
  simp only [specDomainSemantics]
  rw [initDM_full_matchExact rxCompile drs _ hsf,
    initDM_suffix_matchSuffix rxCompile drs _ hsf,
    initDM_kw_match rxCompile drs _ hkw,
    initDM_reg_any rxCompile drs _]

/-- Witness for C4 (amended) at a concrete rule set and query name: the
name `x.b.c` is accepted, via the suffix rule `b.c`. -/
theorem domain_matcher_semantics_witness :
    (∀ dr ∈ [(DRKind.full, ['a']), (DRKind.suffix, ['b', '.', 'c']),
        (DRKind.keyword, ['d'])],
      (dr.1 = DRKind.suffix ∨ dr.1 = DRKind.full) →
        lowerStr (NormalizeDomain dr.2) ≠ []) ∧
    (∀ dr ∈ [(DRKind.full, ['a']), (DRKind.suffix, ['b', '.', 'c']),
        (DRKind.keyword, ['d'])],
      dr.1 = DRKind.keyword → lowerStr dr.2 ≠ []) ∧
    (matchName (initDM (fun _ _ => false)
          [(DRKind.full, ['a']), (DRKind.suffix, ['b', '.', 'c']),
            (DRKind.keyword, ['d'])])
        (lowerStr (NormalizeDomain ['x', '.', 'b', '.', 'c'])) = true ↔
      specDomainSemantics (fun _ _ => false)
        [(DRKind.full, ['a']), (DRKind.suffix, ['b', '.', 'c']),
          (DRKind.keyword, ['d'])]
        (lowerStr (NormalizeDomain ['x', '.', 'b', '.', 'c']))) :=
  ⟨by decide, by decide,
    domain_matcher_semantics (fun _ _ => false)
      [(DRKind.full, ['a']), (DRKind.suffix, ['b', '.', 'c']), (DRKind.keyword, ['d'])]
      ['x', '.', 'b', '.', 'c'] (by decide) (by decide)⟩

/-- C9: `domainMatcher.Match` reads `req.Question[0]` without a bounds
check, so it is total only on requests with a non-empty question
section (the embedding returns `none` where the Go code panics); on
such requests it returns a boolean with a nil error, and the result
depends only on the first question's lowercased, trailing-dot-stripped
name. -/
theorem domain_match_first_question (d : DomainMatcherM) :
    (∀ req : DnsMsg, req.question = [] → dmMatch d req = none) ∧
    (∀ (req : DnsMsg) (q : Question) (qs : List Question), req.question = q :: qs →
      dmMatch d req = some (matchName d (lowerStr (NormalizeDomain q.qname)), none)) ∧
    (∀ (req req' : DnsMsg) (q q' : Question) (qs qs' : List Question),
      req.question = q :: qs → req'.question = q' :: qs' →
      lowerStr (NormalizeDomain q.qname) = lowerStr (NormalizeDomain q'.qname) →
      dmMatch d req = dmMatch d req') := by
  refine ⟨?_, ?_, ?_⟩
  · intro req h
    rw [dmMatch, h]
  · intro req q qs h
    rw [dmMatch, h]
  · intro req req' q q' qs qs' h h' hn
    rw [dmMatch, h, dmMatch, h']
    show some (matchName d (lowerStr (NormalizeDomain q.qname)), none) =
      some (matchName d (lowerStr (NormalizeDomain q'.qname)), none)
    rw [hn]

/-- Witness for C9: a request with no question is rejected (`none`, the
panic), and two requests whose first questions normalize to the same
name get the same answer. -/
theorem domain_match_first_question_witness :
    dmMatch emptyDM ⟨1, 0, 0, [], false⟩ = none ∧
      dmMatch emptyDM ⟨2, 0, 0, [⟨['A'], 1, 1⟩], false⟩ =
        some (matchName emptyDM (lowerStr (NormalizeDomain ['A'])), none) ∧
      dmMatch emptyDM ⟨2, 0, 0, [⟨['A'], 1, 1⟩], false⟩ =
        dmMatch emptyDM ⟨3, 0, 0, [⟨['a', '.'], 28, 1⟩, ⟨['z'], 1, 1⟩], false⟩ :=
  ⟨(domain_match_first_question emptyDM).1 ⟨1, 0, 0, [], false⟩ rfl,
    (domain_match_first_question emptyDM).2.1 ⟨2, 0, 0, [⟨['A'], 1, 1⟩], false⟩
      ⟨['A'], 1, 1⟩ [] rfl,
    (domain_match_first_question emptyDM).2.2 ⟨2, 0, 0, [⟨['A'], 1, 1⟩], false⟩
      ⟨3, 0, 0, [⟨['a', '.'], 28, 1⟩, ⟨['z'], 1, 1⟩], false⟩
      ⟨['A'], 1, 1⟩ ⟨['a', '.'], 28, 1⟩ [] [⟨['z'], 1, 1⟩] rfl rfl (by decide)⟩

end Atlas
